import Mathlib

/-!
Verification of the botao text-record parsing toolkit.

This file gives a shallow embedding of the core of the library
(`src/text.rs`): the field tokenizer (`next_field`, `enum_fields`),
the record reader (`DataRecordReader` with `next_record`/`peek_record`)
and the block reader (`DataBlockReader` with `next_block`/`consume_blanks`).

Modelling conventions:
  - Rust `&str`/`String` values are `List Char`; raw byte buffers are
    `List Nat` (each element a byte value).  UTF-8 encoding and decoding
    are modelled bit-exactly (`utf8EncodeChar`, `from_utf8`).
  - `str::trim` is modelled by `trim` using the Unicode White_Space
    predicate, matching Rust's `char::is_whitespace`.
  - Rust functions that can panic are modelled with an `Option` result:
    `none` means the Rust code panics (byte-slicing off a character
    boundary in `next_field`, or the `panic!("unreachable!")` arm of
    `next_block`).  Loops are translated with an explicit bound that
    dominates the loop's variant (the remaining input strictly shrinks
    each iteration); exhausting the bound also yields `none`.
  - The underlying `io::BufRead` source is a pure byte list; its
    `read_until` is `readUntilSplit` (read through the first delimiter
    byte inclusive, or everything that is left).
-/

namespace Botao

/-- Decidable equality for `Except` results, needed to evaluate the
embedded operations on concrete inputs. -/
instance instDecEqExcept {e a : Type} [DecidableEq e] [DecidableEq a] :
    DecidableEq (Except e a) := fun x y =>
  match x, y with
  | Except.error e1, Except.error e2 =>
    match decEq e1 e2 with
    | isTrue h => isTrue (congrArg Except.error h)
    | isFalse h => isFalse (fun hh => h (Except.error.inj hh))
  | Except.ok v1, Except.ok v2 =>
    match decEq v1 v2 with
    | isTrue h => isTrue (congrArg Except.ok h)
    | isFalse h => isFalse (fun hh => h (Except.ok.inj hh))
  | Except.error _, Except.ok _ => isFalse (fun hh => Except.noConfusion hh)
  | Except.ok _, Except.error _ => isFalse (fun hh => Except.noConfusion hh)

/-- Unicode White_Space test on a character, as Rust's `char::is_whitespace`. -/
def isRustWhitespace (c : Char) : Bool :=
  c.toNat = 0x9 || c.toNat = 0xA || c.toNat = 0xB || c.toNat = 0xC ||
  c.toNat = 0xD || c.toNat = 0x20 || c.toNat = 0x85 || c.toNat = 0xA0 ||
  c.toNat = 0x1680 || (0x2000 ≤ c.toNat && c.toNat ≤ 0x200A) ||
  c.toNat = 0x2028 || c.toNat = 0x2029 || c.toNat = 0x202F ||
  c.toNat = 0x205F || c.toNat = 0x3000

/-- Whitespace byte values below 0x80, i.e. the ASCII cases of White_Space. -/
def wsByte (d : Nat) : Bool :=
  d = 0x9 || d = 0xA || d = 0xB || d = 0xC || d = 0xD || d = 0x20

/-- Remove leading whitespace, first half of Rust's `str::trim`. -/
def trimStart (s : List Char) : List Char :=
  s.dropWhile isRustWhitespace

/-- Remove trailing whitespace, second half of Rust's `str::trim`. -/
def trimEnd (s : List Char) : List Char :=
  (s.reverse.dropWhile isRustWhitespace).reverse

/-- Rust's `str::trim`: remove leading and trailing whitespace. -/
def trim (s : List Char) : List Char :=
  trimEnd (trimStart s)

/-- Length in bytes of the UTF-8 encoding of one character. -/
def utf8Len (c : Char) : Nat :=
  if c.toNat < 0x80 then 1
  else if c.toNat < 0x800 then 2
  else if c.toNat < 0x10000 then 3
  else 4

/-- UTF-8 encoding of one character as a byte list. -/
def utf8EncodeChar (c : Char) : List Nat :=
  if c.toNat < 0x80 then [c.toNat]
  else if c.toNat < 0x800 then
    [0xC0 + c.toNat / 64, 0x80 + c.toNat % 64]
  else if c.toNat < 0x10000 then
    [0xE0 + c.toNat / 4096, 0x80 + c.toNat / 64 % 64, 0x80 + c.toNat % 64]
  else
    [0xF0 + c.toNat / 262144, 0x80 + c.toNat / 4096 % 64,
     0x80 + c.toNat / 64 % 64, 0x80 + c.toNat % 64]

/-- UTF-8 encoding of a string as a byte list. -/
def utf8Encode (s : List Char) : List Nat :=
  match s with
  | [] => []
  | c :: cs => utf8EncodeChar c ++ utf8Encode cs

/-- Is the byte a UTF-8 continuation byte? -/
def utf8Cont (b : Nat) : Prop := 0x80 ≤ b ∧ b < 0xC0

instance (b : Nat) : Decidable (utf8Cont b) :=
  inferInstanceAs (Decidable (0x80 ≤ b ∧ b < 0xC0))

/-- Scalar value of a two-byte UTF-8 sequence. -/
def utf8Val2 (b b1 : Nat) : Nat := (b - 0xC0) * 64 + (b1 - 0x80)

/-- Scalar value of a three-byte UTF-8 sequence. -/
def utf8Val3 (b b1 b2 : Nat) : Nat := (b - 0xE0) * 4096 + (b1 - 0x80) * 64 + (b2 - 0x80)

/-- Scalar value of a four-byte UTF-8 sequence. -/
def utf8Val4 (b b1 b2 b3 : Nat) : Nat :=
  (b - 0xF0) * 262144 + (b1 - 0x80) * 4096 + (b2 - 0x80) * 64 + (b3 - 0x80)

/-- Decodes one UTF-8 scalar from the front of a byte list: the decoded
character and the remaining bytes, or `none` if the front is not a valid
UTF-8 sequence (wrong lead or continuation bytes, overlong forms,
surrogates, or values beyond U+10FFFF). -/
def utf8DecodeOne : List Nat → Option (Char × List Nat)
  | [] => none
  | b :: bs =>
    if b < 0x80 then some (Char.ofNat b, bs)
    else if b < 0xC2 then none
    else if b < 0xE0 then
      match bs with
      | b1 :: bs1 =>
        if utf8Cont b1 then some (Char.ofNat (utf8Val2 b b1), bs1) else none
      | [] => none
    else if b < 0xF0 then
      match bs with
      | b1 :: b2 :: bs2 =>
        if utf8Cont b1 ∧ utf8Cont b2 then
          if 0x800 ≤ utf8Val3 b b1 b2 ∧
              (utf8Val3 b b1 b2 < 0xD800 ∨ 0xE000 ≤ utf8Val3 b b1 b2) then
            some (Char.ofNat (utf8Val3 b b1 b2), bs2)
          else none
        else none
      | [] => none
      | [_] => none
    else if b < 0xF5 then
      match bs with
      | b1 :: b2 :: b3 :: bs3 =>
        if utf8Cont b1 ∧ utf8Cont b2 ∧ utf8Cont b3 then
          if 0x10000 ≤ utf8Val4 b b1 b2 b3 ∧ utf8Val4 b b1 b2 b3 < 0x110000 then
            some (Char.ofNat (utf8Val4 b b1 b2 b3), bs3)
          else none
        else none
      | [] => none
      | [_] => none
      | [_, _] => none
    else none

/-- The decoding loop behind `from_utf8`, with an explicit iteration
bound (each scalar consumes at least one byte, so `length + 1`
iterations always suffice). -/
def from_utf8Go : Nat → List Nat → Option (List Char)
  | _, [] => some []
  | 0, _ :: _ => none
  | fuel + 1, b :: bs =>
    match utf8DecodeOne (b :: bs) with
    | none => none
    | some p => (from_utf8Go fuel p.2).map (fun cs => p.1 :: cs)

/-- Decodes a byte list as UTF-8; models Rust's `String::from_utf8`:
`none` exactly when the bytes are not valid UTF-8. -/
def from_utf8 (bs : List Nat) : Option (List Char) :=
  from_utf8Go (bs.length + 1) bs

/-- First index of byte `b` in a byte list, models the `memchr` crate. -/
def memchr (b : Nat) : List Nat → Option Nat
  | [] => none
  | x :: xs => if x = b then some 0 else (memchr b xs).map (fun i => i + 1)

/-- Splits a string at a BYTE offset `n` of its UTF-8 encoding, as Rust
slice indexing `&s[..n]` / `&s[n..]` does; `none` models the panic that
Rust raises when `n` is not a character boundary (and when `n` points
past the end of the string). -/
def byteSplit : Nat → List Char → Option (List Char × List Char)
  | 0, s => some ([], s)
  | _ + 1, [] => none
  | n + 1, c :: cs =>
    if n + 1 < utf8Len c then none
    else (byteSplit (n + 1 - utf8Len c) cs).map (fun p => (c :: p.1, p.2))

/-- Models `next_field` of `src/text.rs` (the copy in `src/fields.rs` is
identical): trim the record, find the first occurrence of the delimiter
byte in the trimmed record's UTF-8 bytes, and return the trimmed prefix
before it together with the untrimmed remainder after it; if the
delimiter byte does not occur, return the whole trimmed record and an
empty remainder.  `none` models the byte-slicing panic. -/
def next_field (delim : Nat) (record : List Char) : Option (List Char × List Char) :=
  match memchr delim (utf8Encode (trim record)) with
  | none => some (trim record, [])
  | some pos =>
    match byteSplit pos (trim record) with
    | none => none
    | some p =>
      match byteSplit 1 p.2 with
      | none => none
      | some q => some (trim p.1, q.2)

/-- One full drain of the `EnumFields` iterator: while the remaining
record is nonempty, apply `next_field` and emit the field.  The first
argument bounds the number of iterations (each iteration strictly
shortens the remaining record, so `length + 1` steps always suffice);
`none` means a step panicked or the bound was exhausted. -/
def enumFieldsGo (delim : Nat) : Nat → List Char → Option (List (List Char))
  | 0, _ => none
  | fuel + 1, v =>
    if v.length = 0 then some []
    else
      match next_field delim v with
      | none => none
      | some p => (enumFieldsGo delim fuel p.2).map (fun fs => p.1 :: fs)

/-- Models `enum_fields`: the list of all fields the `EnumFields`
iterator yields for the given delimiter and record. -/
def enum_fields (delim : Nat) (record : List Char) : Option (List (List Char)) :=
  enumFieldsGo delim (record.length + 1) (trim record)

/-- Models the `DataRecord` enum of `src/text.rs`. -/
inductive DataRecord : Type
  /-- A record with fields. -/
  | Fields : List (List Char) → DataRecord
  /-- A comment line. -/
  | Comment : List Char → DataRecord
  /-- A blank line. -/
  | Blank : DataRecord
  /-- The End-Of-File. -/
  | EOF : DataRecord
deriving DecidableEq

/-- Models the `ReaderError` enum (the `Io` variant is unreachable in
this pure model of the byte source, but kept for type fidelity). -/
inductive ReaderError : Type
  | IoError : ReaderError
  | FromUTF8 : ReaderError
deriving DecidableEq

/-- Models the `DataRecordReader` struct: the byte source, the two
delimiters, the reused line buffer, and the single-record peek slot. -/
structure DataRecordReader : Type where
  stream : List Nat
  record_delimiter : Nat
  field_delimiter : Nat
  buffer : List Nat
  peek_buf : Option DataRecord
deriving DecidableEq

/-- Models `DataRecordReader::new`: record delimiter LF, field delimiter
comma, empty buffer, empty peek slot. -/
def DataRecordReader.new (stream : List Nat) : DataRecordReader :=
  { stream := stream, record_delimiter := 10, field_delimiter := 44,
    buffer := [], peek_buf := none }

/-- Models `DataRecordReader::set_field_delimiter`. -/
def set_field_delimiter (r : DataRecordReader) (delim : Nat) : DataRecordReader :=
  { r with field_delimiter := delim }

/-- Models `BufRead::read_until` on a pure byte source: the bytes up to
and including the first occurrence of the delimiter (or everything if
the delimiter does not occur), together with the bytes left over. -/
def readUntilSplit (delim : Nat) : List Nat → List Nat × List Nat
  | [] => ([], [])
  | b :: bs =>
    if b = delim then ([b], bs)
    else
      match readUntilSplit delim bs with
      | (taken, rest) => (b :: taken, rest)

/-- Models `DataRecordReader::next_record`.  Returns the produced
record (or the typed error) together with the updated reader state;
`none` models a panic inside field enumeration.  Note that on a decode
failure the buffer is NOT cleared: the source code clears it only after
`String::from_utf8` has succeeded. -/
def next_record (r : DataRecordReader) : Option (Except ReaderError DataRecord × DataRecordReader) :=
  match r.peek_buf with
  | some record => some (Except.ok record, { r with peek_buf := none })
  | none =>
    let taken := (readUntilSplit r.record_delimiter r.stream).1
    let rest := (readUntilSplit r.record_delimiter r.stream).2
    if taken.length = 0 then
      some (Except.ok DataRecord.EOF, { r with stream := rest, buffer := r.buffer ++ taken })
    else if (r.buffer ++ taken).head? = some 35 then
      match from_utf8 (r.buffer ++ taken) with
      | none => some (Except.error ReaderError.FromUTF8,
                      { r with stream := rest, buffer := r.buffer ++ taken })
      | some s => some (Except.ok (DataRecord.Comment s), { r with stream := rest, buffer := [] })
    else
      match from_utf8 (r.buffer ++ taken) with
      | none => some (Except.error ReaderError.FromUTF8,
                      { r with stream := rest, buffer := r.buffer ++ taken })
      | some s =>
        match enum_fields r.field_delimiter s with
        | none => none
        | some fields =>
          if fields.length = 0 then
            some (Except.ok DataRecord.Blank, { r with stream := rest, buffer := [] })
          else
            some (Except.ok (DataRecord.Fields fields), { r with stream := rest, buffer := [] })

/-- Models `DataRecordReader::peek_record`: if the peek slot is empty,
fill it via `next_record` (propagating errors without filling it), then
return the slot's record. -/
def peek_record (r : DataRecordReader) : Option (Except ReaderError DataRecord × DataRecordReader) :=
  match r.peek_buf with
  | some record => some (Except.ok record, r)
  | none =>
    match next_record r with
    | none => none
    | some (Except.error e, r1) => some (Except.error e, r1)
    | some (Except.ok record, r1) =>
      some (Except.ok record, { r1 with peek_buf := some record })

/-- Errors surfaced by `DataBlockReader`: a reader failure or a
caller-side per-field conversion failure. -/
inductive BlockError (PE : Type) : Type
  | reader : ReaderError → BlockError PE
  | parse : PE → BlockError PE
deriving DecidableEq

/-- Models `fields.iter().map(T::from_str).collect::<Result<Vec<T>, _>>()`:
parse the fields left to right, stopping at the first failure. -/
def collectResults {PE T : Type} (parse : List Char → Except PE T) :
    List (List Char) → Except PE (List T)
  | [] => Except.ok []
  | f :: fs =>
    match parse f with
    | Except.error e => Except.error e
    | Except.ok v =>
      match collectResults parse fs with
      | Except.error e => Except.error e
      | Except.ok vs => Except.ok (v :: vs)

/-- Loop variant for the block-reader loops: every iteration either
consumes the peek slot or consumes at least one byte of the source. -/
def readerMeasure (r : DataRecordReader) : Nat :=
  r.stream.length + (match r.peek_buf with | some _ => 1 | none => 0)

/-- The loop body of `DataBlockReader::next_block`, with an explicit
iteration bound (first argument).  Faithful to the source: peek; stop
at `EOF`/`Blank` leaving the record unconsumed and return the block
accumulated so far (`none` for an empty block); otherwise consume with
`next_record`, skip comments, parse a `Fields` record with the supplied
converter aborting on the first failure, and treat a consumed
`EOF`/`Blank` as the `panic!("unreachable!")` arm (modelled, like an
exhausted bound, by the outer `none`). -/
def nextBlockGo {PE T : Type} (parse : List Char → Except PE T) :
    Nat → DataRecordReader →
    Option (Except (BlockError PE) (Option (List (List T))) × DataRecordReader)
  | 0, _ => none
  | fuel + 1, r =>
    match peek_record r with
    | none => none
    | some (Except.error e, r1) => some (Except.error (BlockError.reader e), r1)
    | some (Except.ok DataRecord.EOF, r1) => some (Except.ok none, r1)
    | some (Except.ok DataRecord.Blank, r1) => some (Except.ok none, r1)
    | some (Except.ok _, r1) =>
      match next_record r1 with
      | none => none
      | some (Except.error e, r2) => some (Except.error (BlockError.reader e), r2)
      | some (Except.ok (DataRecord.Comment _), r2) => nextBlockGo parse fuel r2
      | some (Except.ok (DataRecord.Fields fields), r2) =>
        match collectResults parse fields with
        | Except.error e => some (Except.error (BlockError.parse e), r2)
        | Except.ok row =>
          match nextBlockGo parse fuel r2 with
          | none => none
          | some (Except.error e, r3) => some (Except.error e, r3)
          | some (Except.ok rows, r3) =>
            some (Except.ok (some (row :: rows.getD [])), r3)
      | some (Except.ok DataRecord.EOF, _) => none
      | some (Except.ok DataRecord.Blank, _) => none

/-- Models `DataBlockReader::next_block`, instantiating the iteration
bound with a value that dominates the loop variant. -/
def next_block {PE T : Type} (parse : List Char → Except PE T) (r : DataRecordReader) :
    Option (Except (BlockError PE) (Option (List (List T))) × DataRecordReader) :=
  nextBlockGo parse (readerMeasure r + 1) r

/-- The loop body of `DataBlockReader::consume_blanks`, with an explicit
iteration bound: while the peeked record is `Blank` or `Comment`,
consume it and count it; stop at anything else without consuming.  The
`.unwrap()` on the inner `next_record` is a panic on failure, modelled
by `none`. -/
def consumeBlanksGo : Nat → DataRecordReader → Option (Except ReaderError Nat × DataRecordReader)
  | 0, _ => none
  | fuel + 1, r =>
    match peek_record r with
    | none => none
    | some (Except.error e, r1) => some (Except.error e, r1)
    | some (Except.ok DataRecord.Blank, r1) =>
      match next_record r1 with
      | none => none
      | some (Except.error _, _) => none
      | some (Except.ok _, r2) =>
        match consumeBlanksGo fuel r2 with
        | none => none
        | some (Except.error e, r3) => some (Except.error e, r3)
        | some (Except.ok n, r3) => some (Except.ok (n + 1), r3)
    | some (Except.ok (DataRecord.Comment _), r1) =>
      match next_record r1 with
      | none => none
      | some (Except.error _, _) => none
      | some (Except.ok _, r2) =>
        match consumeBlanksGo fuel r2 with
        | none => none
        | some (Except.error e, r3) => some (Except.error e, r3)
        | some (Except.ok n, r3) => some (Except.ok (n + 1), r3)
    | some (Except.ok _, r1) => some (Except.ok 0, r1)

/-- Models `DataBlockReader::consume_blanks`, instantiating the
iteration bound with a value that dominates the loop variant. -/
def consume_blanks (r : DataRecordReader) : Option (Except ReaderError Nat × DataRecordReader) :=
  consumeBlanksGo (readerMeasure r + 1) r

/- Specification-side definitions, used only to state the properties. -/

/-- The classification of one decoded physical line (the line text
includes its trailing record delimiter), mirroring the spec's rule:
first byte `#` means comment; otherwise zero fields means blank and
one-or-more fields means a field record.  (The `none` fallback of
`enum_fields` is arbitrary; it is never reached for an ASCII field
delimiter.) -/
def classify (fd : Nat) (line : List Char) : DataRecord :=
  if line.head? = some '#' then DataRecord.Comment line
  else
    match enum_fields fd line with
    | some [] => DataRecord.Blank
    | some fields => DataRecord.Fields fields
    | none => DataRecord.Blank

/-- Encodes a list of LF-free lines as the byte stream that terminates
each line with an LF byte. -/
def encodeLines : List (List Char) → List Nat
  | [] => []
  | l :: ls => (utf8Encode l ++ [10]) ++ encodeLines ls

/-- Every line is free of the LF byte in its encoding, so that
`encodeLines` really produces one record per line. -/
def linesWF (lines : List (List Char)) : Bool :=
  lines.all (fun l => (utf8Encode l).all (fun b => b ≠ 10))

/-- A fresh reader over the given bytes with the given field delimiter
(and the default LF record delimiter). -/
def mkReader (fd : Nat) (s : List Nat) : DataRecordReader :=
  set_field_delimiter (DataRecordReader.new s) fd

/-- The records that a list of lines classifies to. -/
def recordsOf (fd : Nat) (lines : List (List Char)) : List DataRecord :=
  lines.map (fun l => classify fd (l ++ ['\n']))

/-- Is the record part of a block run (a field record or a comment)? -/
def isFC : DataRecord → Bool
  | DataRecord.Fields _ => true
  | DataRecord.Comment _ => true
  | _ => false

/-- Is the record skipped by `consume_blanks` (blank or comment)? -/
def isBC : DataRecord → Bool
  | DataRecord.Blank => true
  | DataRecord.Comment _ => true
  | _ => false

/-- The rows of fields of the maximal leading run of field/comment
records (comments contribute no row). -/
def maxRunRows (rs : List DataRecord) : List (List (List Char)) :=
  (rs.takeWhile isFC).filterMap
    (fun r => match r with | DataRecord.Fields fs => some fs | _ => none)

/-- The record that terminates the maximal leading field/comment run
(`EOF` when the list is exhausted). -/
def boundaryRec (rs : List DataRecord) : DataRecord :=
  (rs.dropWhile isFC).headD DataRecord.EOF

/-- Number of leading blank/comment records. -/
def blanksCount (rs : List DataRecord) : Nat :=
  (rs.takeWhile isBC).length

/-- The record that terminates the leading blank/comment run
(`EOF` when the list is exhausted). -/
def blanksBoundary (rs : List DataRecord) : DataRecord :=
  (rs.dropWhile isBC).headD DataRecord.EOF

/-- Parse every row of fields, left to right, stopping at the first
failure, as the block reader does record by record. -/
def parseRows {PE T : Type} (parse : List Char → Except PE T) :
    List (List (List Char)) → Except PE (List (List T))
  | [] => Except.ok []
  | fs :: rest =>
    match collectResults parse fs with
    | Except.error e => Except.error e
    | Except.ok row =>
      match parseRows parse rest with
      | Except.error e => Except.error e
      | Except.ok rows => Except.ok (row :: rows)

/-- The reader state in which `next_block` leaves its reader on success:
the boundary record sits unconsumed in the peek slot and the stream
holds the bytes of the lines after the boundary line. -/
def blockBoundaryState (fd : Nat) (lines : List (List Char)) : DataRecordReader :=
  { stream := encodeLines (lines.drop (((recordsOf fd lines).takeWhile isFC).length + 1)),
    record_delimiter := 10, field_delimiter := fd, buffer := [],
    peek_buf := some (boundaryRec (recordsOf fd lines)) }

/-- The reader state in which `consume_blanks` leaves its reader:
the boundary record sits unconsumed in the peek slot and the stream
holds the bytes of the lines after the boundary line. -/
def blanksBoundaryState (fd : Nat) (lines : List (List Char)) : DataRecordReader :=
  { stream := encodeLines (lines.drop (((recordsOf fd lines).takeWhile isBC).length + 1)),
    record_delimiter := 10, field_delimiter := fd, buffer := [],
    peek_buf := some (blanksBoundary (recordsOf fd lines)) }

/-- Splitting a string on a delimiter BYTE: the substrings between
consecutive occurrences of characters whose code is that byte.  This is
the specification's reading of "the substrings of `t` lying between
consecutive occurrences of `d`" (n occurrences give n+1 parts). -/
def splitOnByte (d : Nat) : List Char → List (List Char)
  | [] => [[]]
  | c :: cs =>
    if c.toNat = d then [] :: splitOnByte d cs
    else
      match splitOnByte d cs with
      | [] => [[c]]
      | p :: ps => (c :: p) :: ps

/-- Does the string start with a character whose code is the byte `d`? -/
def headIsDelim (d : Nat) : List Char → Bool
  | [] => false
  | c :: _ => c.toNat = d

/-- Does the string contain two adjacent characters whose code is the
byte `d`? -/
def hasAdjacentDelim (d : Nat) : List Char → Bool
  | c1 :: c2 :: cs => (c1.toNat = d && c2.toNat = d) || hasAdjacentDelim d (c2 :: cs)
  | _ => false

/-- A concrete caller-supplied per-field converter for witnesses:
parses a nonempty all-digit field as a natural number. -/
def parseDigits (s : List Char) : Except Unit Nat :=
  if s ≠ [] ∧ s.all (fun c => c.isDigit) then
    Except.ok (s.foldl (fun n c => n * 10 + (c.toNat - 48)) 0)
  else Except.error ()

/-! ### Character and UTF-8 encoding lemmas -/

theorem char_valid_nat (c : Char) : Nat.isValidChar c.toNat := c.valid

theorem char_toNat_lt (c : Char) : c.toNat < 0x110000 := by
  rcases char_valid_nat c with h | h
  · omega
  · omega

theorem char_eq_of_toNat_eq {c d : Char} (h : c.toNat = d.toNat) : c = d := by
  have h1 := Char.ofNat_toNat c
  have h2 := Char.ofNat_toNat d
  rw [← h1, ← h2, h]

theorem utf8Len_pos (c : Char) : 0 < utf8Len c := by
  unfold utf8Len
  split_ifs <;> omega

theorem length_utf8EncodeChar (c : Char) : (utf8EncodeChar c).length = utf8Len c := by
  unfold utf8EncodeChar utf8Len
  split_ifs <;> rfl

theorem utf8EncodeChar_ascii {c : Char} (h : c.toNat < 0x80) :
    utf8EncodeChar c = [c.toNat] := by
  unfold utf8EncodeChar
  rw [if_pos h]

theorem utf8EncodeChar_ge {c : Char} (h : 0x80 ≤ c.toNat) :
    ∀ b ∈ utf8EncodeChar c, 0x80 ≤ b := by
  intro b hb
  unfold utf8EncodeChar at hb
  split_ifs at hb with h1 h2 h3
  · omega
  · simp only [List.mem_cons, List.not_mem_nil, or_false] at hb
    rcases hb with rfl | rfl <;> omega
  · simp only [List.mem_cons, List.not_mem_nil, or_false] at hb
    rcases hb with rfl | rfl | rfl <;> omega
  · simp only [List.mem_cons, List.not_mem_nil, or_false] at hb
    rcases hb with rfl | rfl | rfl | rfl <;> omega

theorem mem_utf8EncodeChar_iff_ascii {c : Char} {d : Nat} (hd : d < 0x80) :
    d ∈ utf8EncodeChar c ↔ c.toNat = d := by
  constructor
  · intro hmem
    by_cases h : c.toNat < 0x80
    · rw [utf8EncodeChar_ascii h] at hmem
      simp only [List.mem_cons, List.not_mem_nil, or_false] at hmem
      omega
    · exfalso
      have := utf8EncodeChar_ge (by omega) d hmem
      omega
  · intro h
    rw [utf8EncodeChar_ascii (by omega)]
    simp [h]

theorem utf8Encode_append (a b : List Char) :
    utf8Encode (a ++ b) = utf8Encode a ++ utf8Encode b := by
  induction a with
  | nil => simp [utf8Encode]
  | cons c cs ih => simp [utf8Encode, ih]

theorem utf8Encode_not_mem {d : Nat} (hd : d < 0x80) {s : List Char}
    (h : ∀ c ∈ s, c.toNat ≠ d) : d ∉ utf8Encode s := by
  induction s with
  | nil => simp [utf8Encode]
  | cons c cs ih =>
    simp only [utf8Encode, List.mem_append]
    push_neg
    refine ⟨fun hmem => ?_, ih (fun x hx => h x (List.mem_cons_of_mem c hx))⟩
    exact h c (List.mem_cons_self c cs) ((mem_utf8EncodeChar_iff_ascii hd).mp hmem)

theorem utf8EncodeChar_ne_nil (c : Char) : utf8EncodeChar c ≠ [] := by
  unfold utf8EncodeChar
  split_ifs <;> simp

theorem utf8DecodeOne_encodeChar (c : Char) (bs : List Nat) :
    utf8DecodeOne (utf8EncodeChar c ++ bs) = some (c, bs) := by
  have hval := char_valid_nat c
  have hlt := char_toNat_lt c
  by_cases h1 : c.toNat < 0x80
  · rw [utf8EncodeChar_ascii h1]
    show utf8DecodeOne (c.toNat :: bs) = some (c, bs)
    simp only [utf8DecodeOne]
    rw [if_pos h1, Char.ofNat_toNat]
  · by_cases h2 : c.toNat < 0x800
    · have e : utf8EncodeChar c = [0xC0 + c.toNat / 64, 0x80 + c.toNat % 64] := by
        unfold utf8EncodeChar
        rw [if_neg h1, if_pos h2]
      rw [e]
      show utf8DecodeOne ((0xC0 + c.toNat / 64) :: (0x80 + c.toNat % 64) :: bs) = some (c, bs)
      simp only [utf8DecodeOne]
      rw [if_neg (by omega), if_neg (by omega), if_pos (by omega)]
      show (if utf8Cont (0x80 + c.toNat % 64) then
        some (Char.ofNat (utf8Val2 (0xC0 + c.toNat / 64) (0x80 + c.toNat % 64)), bs) else none) =
        some (c, bs)
      rw [if_pos (by unfold utf8Cont; omega)]
      have ev : utf8Val2 (0xC0 + c.toNat / 64) (0x80 + c.toNat % 64) = c.toNat := by
        unfold utf8Val2
        omega
      rw [ev, Char.ofNat_toNat]
    · by_cases h3 : c.toNat < 0x10000
      · have e : utf8EncodeChar c =
            [0xE0 + c.toNat / 4096, 0x80 + c.toNat / 64 % 64, 0x80 + c.toNat % 64] := by
          unfold utf8EncodeChar
          rw [if_neg h1, if_neg h2, if_pos h3]
        rw [e]
        show utf8DecodeOne ((0xE0 + c.toNat / 4096) :: (0x80 + c.toNat / 64 % 64) ::
            (0x80 + c.toNat % 64) :: bs) = some (c, bs)
        simp only [utf8DecodeOne]
        rw [if_neg (by omega), if_neg (by omega), if_neg (by omega), if_pos (by omega)]
        show (if utf8Cont (0x80 + c.toNat / 64 % 64) ∧ utf8Cont (0x80 + c.toNat % 64) then _
          else none) = some (c, bs)
        rw [if_pos (by unfold utf8Cont; omega)]
        have ev : utf8Val3 (0xE0 + c.toNat / 4096) (0x80 + c.toNat / 64 % 64)
            (0x80 + c.toNat % 64) = c.toNat := by
          unfold utf8Val3
          omega
        rw [ev]
        rw [if_pos ⟨by omega, by rcases hval with h | h
                                 · exact Or.inl (by omega)
                                 · exact Or.inr (by omega)⟩]
        rw [Char.ofNat_toNat]
      · have e : utf8EncodeChar c =
            [0xF0 + c.toNat / 262144, 0x80 + c.toNat / 4096 % 64,
             0x80 + c.toNat / 64 % 64, 0x80 + c.toNat % 64] := by
          unfold utf8EncodeChar
          rw [if_neg h1, if_neg h2, if_neg h3]
        rw [e]
        show utf8DecodeOne ((0xF0 + c.toNat / 262144) :: (0x80 + c.toNat / 4096 % 64) ::
            (0x80 + c.toNat / 64 % 64) :: (0x80 + c.toNat % 64) :: bs) = some (c, bs)
        simp only [utf8DecodeOne]
        rw [if_neg (by omega), if_neg (by omega), if_neg (by omega), if_neg (by omega),
            if_pos (by omega)]
        show (if utf8Cont (0x80 + c.toNat / 4096 % 64) ∧ utf8Cont (0x80 + c.toNat / 64 % 64) ∧
            utf8Cont (0x80 + c.toNat % 64) then _ else none) = some (c, bs)
        rw [if_pos (by unfold utf8Cont; omega)]
        have ev : utf8Val4 (0xF0 + c.toNat / 262144) (0x80 + c.toNat / 4096 % 64)
            (0x80 + c.toNat / 64 % 64) (0x80 + c.toNat % 64) = c.toNat := by
          unfold utf8Val4
          omega
        rw [ev]
        rw [if_pos ⟨by omega, by omega⟩]
        rw [Char.ofNat_toNat]

theorem from_utf8Go_encode (s : List Char) :
    ∀ fuel, (utf8Encode s).length < fuel → from_utf8Go fuel (utf8Encode s) = some s := by
  induction s with
  | nil =>
    intro fuel _
    cases fuel <;> rfl
  | cons c cs ih =>
    intro fuel hf
    have hne : utf8Encode (c :: cs) = utf8EncodeChar c ++ utf8Encode cs := rfl
    have hlen : 1 ≤ (utf8EncodeChar c).length := by
      have := length_utf8EncodeChar c
      have := utf8Len_pos c
      omega
    cases fuel with
    | zero =>
      exfalso
      omega
    | succ fuel =>
      obtain ⟨b, t, hbt⟩ : ∃ b t, utf8EncodeChar c = b :: t := by
        cases he : utf8EncodeChar c with
        | nil => exact absurd he (utf8EncodeChar_ne_nil c)
        | cons b t => exact ⟨b, t, rfl⟩
      have hsplit : utf8Encode (c :: cs) = b :: (t ++ utf8Encode cs) := by
        rw [hne, hbt]
        rfl
      rw [hsplit]
      show from_utf8Go (fuel + 1) (b :: (t ++ utf8Encode cs)) = some (c :: cs)
      rw [from_utf8Go]
      have hdec : utf8DecodeOne (b :: (t ++ utf8Encode cs)) = some (c, utf8Encode cs) := by
        have := utf8DecodeOne_encodeChar c (utf8Encode cs)
        rw [hbt] at this
        simpa using this
      rw [hdec]
      show (from_utf8Go fuel (utf8Encode cs)).map (fun cs => c :: cs) = some (c :: cs)
      have hrec : from_utf8Go fuel (utf8Encode cs) = some cs := by
        apply ih
        rw [hne] at hf
        rw [List.length_append] at hf
        omega
      rw [hrec]
      rfl

theorem from_utf8_encode (s : List Char) : from_utf8 (utf8Encode s) = some s := by
  unfold from_utf8
  exact from_utf8Go_encode s _ (Nat.lt_succ_self _)

theorem head_utf8EncodeChar_eq_35_iff (c : Char) :
    (utf8EncodeChar c).head? = some 35 ↔ c = '#' := by
  constructor
  · intro h
    by_cases h1 : c.toNat < 0x80
    · rw [utf8EncodeChar_ascii h1] at h
      simp only [List.head?_cons, Option.some.injEq] at h
      exact char_eq_of_toNat_eq (by simpa using h)
    · exfalso
      unfold utf8EncodeChar at h
      rw [if_neg h1] at h
      split_ifs at h <;> simp only [List.head?_cons, Option.some.injEq] at h <;> omega
  · intro h
    subst h
    rfl

/-! ### Tokenizer lemmas: memchr, byte splitting, next_field -/

theorem memchr_eq_none {d : Nat} {bs : List Nat} (h : d ∉ bs) : memchr d bs = none := by
  induction bs with
  | nil => rfl
  | cons b t ih =>
    simp only [memchr]
    rw [if_neg (fun hb => h (by simp [hb])), ih (fun hm => h (List.mem_cons_of_mem b hm))]
    rfl

theorem memchr_append_of_not_mem {d : Nat} {as : List Nat} (h : d ∉ as) (bs : List Nat) :
    memchr d (as ++ bs) = (memchr d bs).map (fun i => i + as.length) := by
  induction as with
  | nil => cases hm : memchr d bs <;> simp [hm]
  | cons a t ih =>
    have ha : a ≠ d := fun hh => h (by simp [hh])
    have ht : d ∉ t := fun hm => h (List.mem_cons_of_mem a hm)
    show memchr d (a :: (t ++ bs)) = _
    simp only [memchr]
    rw [if_neg ha, ih ht]
    cases memchr d bs with
    | none => rfl
    | some i =>
      simp only [Option.map_some', List.length_cons, Option.some.injEq]
      omega

theorem byteSplit_zero (s : List Char) : byteSplit 0 s = some ([], s) := by
  cases s <;> rfl

theorem byteSplit_cons_ge {n : Nat} {c : Char} (cs : List Char) (h : utf8Len c ≤ n) :
    byteSplit n (c :: cs) = (byteSplit (n - utf8Len c) cs).map (fun p => (c :: p.1, p.2)) := by
  have hpos := utf8Len_pos c
  obtain ⟨m, rfl⟩ : ∃ m, n = m + 1 := ⟨n - 1, by omega⟩
  simp only [byteSplit]
  rw [if_neg (by omega)]

theorem byteSplit_append (a b : List Char) :
    byteSplit (utf8Encode a).length (a ++ b) = some (a, b) := by
  induction a with
  | nil => simp [utf8Encode, byteSplit_zero]
  | cons c t ih =>
    have h1 : (utf8Encode (c :: t)).length = utf8Len c + (utf8Encode t).length := by
      show (utf8EncodeChar c ++ utf8Encode t).length = _
      rw [List.length_append, length_utf8EncodeChar]
    rw [h1]
    show byteSplit (utf8Len c + (utf8Encode t).length) (c :: (t ++ b)) = _
    rw [byteSplit_cons_ge (t ++ b) (by omega)]
    have h2 : utf8Len c + (utf8Encode t).length - utf8Len c = (utf8Encode t).length := by omega
    rw [h2, ih]
    rfl

theorem byteSplit_eq_append :
    ∀ {n : Nat} {s a b : List Char}, byteSplit n s = some (a, b) → s = a ++ b := by
  intro n s
  induction s generalizing n with
  | nil =>
    intro a b h
    cases n with
    | zero =>
      rw [byteSplit_zero] at h
      cases h
      rfl
    | succ m => exact absurd h (by simp [byteSplit])
  | cons c cs ih =>
    intro a b h
    cases n with
    | zero =>
      rw [byteSplit_zero] at h
      cases h
      rfl
    | succ m =>
      simp only [byteSplit] at h
      split_ifs at h
      cases hb : byteSplit (m + 1 - utf8Len c) cs with
      | none =>
        rw [hb] at h
        exact absurd h (by simp)
      | some p =>
        rw [hb] at h
        simp only [Option.map_some', Option.some.injEq] at h
        have := ih hb
        cases h
        simp [this]

theorem dropWhile_length_le (p : Char → Bool) (l : List Char) :
    (l.dropWhile p).length ≤ l.length := by
  induction l with
  | nil => simp
  | cons a t ih =>
    by_cases h : p a
    · simp [List.dropWhile, h]
      omega
    · simp [List.dropWhile, h]

theorem trimStart_length_le (s : List Char) : (trimStart s).length ≤ s.length :=
  dropWhile_length_le isRustWhitespace s

theorem trimEnd_length_le (s : List Char) : (trimEnd s).length ≤ s.length := by
  unfold trimEnd
  rw [List.length_reverse]
  have := dropWhile_length_le isRustWhitespace s.reverse
  rw [List.length_reverse] at this
  exact this

theorem trim_length_le (s : List Char) : (trim s).length ≤ s.length := by
  unfold trim
  exact le_trans (trimEnd_length_le _) (trimStart_length_le _)

theorem firstDelimSplit (d : Nat) (u : List Char) :
    (∀ x ∈ u, x.toNat ≠ d) ∨
    ∃ p c r, u = p ++ c :: r ∧ c.toNat = d ∧ ∀ x ∈ p, x.toNat ≠ d := by
  induction u with
  | nil => exact Or.inl (by simp)
  | cons a t ih =>
    by_cases ha : a.toNat = d
    · exact Or.inr ⟨[], a, t, rfl, ha, by simp⟩
    · rcases ih with h | ⟨p, c, r, he, hc, hp⟩
      · refine Or.inl ?_
        intro x hx
        rcases List.mem_cons.mp hx with rfl | hx
        · exact ha
        · exact h x hx
      · refine Or.inr ⟨a :: p, c, r, by rw [he]; rfl, hc, ?_⟩
        intro x hx
        rcases List.mem_cons.mp hx with rfl | hx
        · exact ha
        · exact hp x hx

theorem next_field_no_delim {d : Nat} (hd : d < 0x80) {v : List Char}
    (h : ∀ x ∈ trim v, x.toNat ≠ d) : next_field d v = some (trim v, []) := by
  have hmem : memchr d (utf8Encode (trim v)) = none :=
    memchr_eq_none (utf8Encode_not_mem hd h)
  unfold next_field
  rw [hmem]

theorem utf8Len_ascii {c : Char} (h : c.toNat < 0x80) : utf8Len c = 1 := by
  unfold utf8Len
  rw [if_pos h]

theorem byteSplit_one_ascii {c : Char} (h : c.toNat < 0x80) (r : List Char) :
    byteSplit 1 (c :: r) = some ([c], r) := by
  rw [byteSplit_cons_ge r (by rw [utf8Len_ascii h]), utf8Len_ascii h]
  show (byteSplit 0 r).map _ = _
  rw [byteSplit_zero]
  rfl

theorem next_field_first_delim {d : Nat} (hd : d < 0x80) {v p r : List Char} {c : Char}
    (he : trim v = p ++ c :: r) (hc : c.toNat = d) (hp : ∀ x ∈ p, x.toNat ≠ d) :
    next_field d v = some (trim p, r) := by
  have henc : utf8Encode (trim v) = utf8Encode p ++ (c.toNat :: utf8Encode r) := by
    rw [he, utf8Encode_append]
    congr 1
    show utf8EncodeChar c ++ utf8Encode r = _
    rw [utf8EncodeChar_ascii (by omega)]
    rfl
  have hmc : memchr d (utf8Encode (trim v)) = some (utf8Encode p).length := by
    rw [henc, memchr_append_of_not_mem (utf8Encode_not_mem hd hp)]
    show (memchr d (c.toNat :: utf8Encode r)).map _ = _
    simp only [memchr]
    rw [if_pos hc]
    simp
  have hbs : byteSplit (utf8Encode p).length (trim v) = some (p, c :: r) := by
    rw [he]
    exact byteSplit_append p (c :: r)
  unfold next_field
  rw [hmc]
  show (match byteSplit (utf8Encode p).length (trim v) with
    | none => none
    | some pp =>
      match byteSplit 1 pp.2 with
      | none => none
      | some q => some (trim pp.1, q.2)) = some (trim p, r)
  rw [hbs]
  show (match byteSplit 1 (c :: r) with
    | none => none
    | some q => some (trim p, q.2)) = some (trim p, r)
  rw [byteSplit_one_ascii (by omega) r]

theorem next_field_isSome {d : Nat} (hd : d < 0x80) (v : List Char) :
    (next_field d v).isSome := by
  rcases firstDelimSplit d (trim v) with h | ⟨p, c, r, he, hc, hp⟩
  · rw [next_field_no_delim hd h]
    rfl
  · rw [next_field_first_delim hd he hc hp]
    rfl

theorem next_field_length_lt {d : Nat} (hd : d < 0x80) {v f r : List Char} (hv : v ≠ [])
    (h : next_field d v = some (f, r)) : r.length < v.length := by
  have hvlen : 1 ≤ v.length := by
    cases v with
    | nil => exact absurd rfl hv
    | cons a t => simp
  rcases firstDelimSplit d (trim v) with hno | ⟨p, c, r0, he, hc, hp⟩
  · rw [next_field_no_delim hd hno] at h
    cases h
    simpa using hvlen
  · rw [next_field_first_delim hd he hc hp] at h
    cases h
    have h1 : (trim v).length = p.length + (r.length + 1) := by
      rw [he]
      simp
    have h2 := trim_length_le v
    omega

theorem enumFieldsGo_isSome {d : Nat} (hd : d < 0x80) :
    ∀ fuel v, v.length < fuel → (enumFieldsGo d fuel v).isSome := by
  intro fuel
  induction fuel with
  | zero =>
    intro v h
    omega
  | succ fuel ih =>
    intro v h
    cases v with
    | nil => simp [enumFieldsGo]
    | cons c cs =>
      obtain ⟨q, hq⟩ := Option.isSome_iff_exists.mp (next_field_isSome hd (c :: cs))
      obtain ⟨f, r⟩ := q
      have hlt := next_field_length_lt hd (by simp) hq
      rw [enumFieldsGo]
      rw [if_neg (by simp), hq]
      show ((enumFieldsGo d fuel r).map (fun fs => f :: fs)).isSome = true
      have := ih r (by simp only [List.length_cons] at hlt h; omega)
      cases hr : enumFieldsGo d fuel r with
      | none =>
        rw [hr] at this
        exact absurd this (by simp)
      | some fs => rfl

theorem enum_fields_isSome {d : Nat} (hd : d < 0x80) (record : List Char) :
    (enum_fields d record).isSome := by
  unfold enum_fields
  exact enumFieldsGo_isSome hd _ _ (by have := trim_length_le record; omega)

/-! ### Trimming lemmas -/

theorem dropWhile_head?_false (p : Char → Bool) (l : List Char) :
    ∀ c, (l.dropWhile p).head? = some c → p c = false := by
  induction l with
  | nil =>
    intro c h
    simp at h
  | cons a t ih =>
    intro c h
    rw [List.dropWhile_cons] at h
    split_ifs at h with hpa
    · exact ih c h
    · simp only [List.head?_cons, Option.some.injEq] at h
      subst h
      cases hpb : p a with
      | false => rfl
      | true => exact absurd hpb hpa

theorem dropWhile_eq_self_of_head?_false (p : Char → Bool) (l : List Char)
    (h : ∀ c, l.head? = some c → p c = false) : l.dropWhile p = l := by
  cases l with
  | nil => rfl
  | cons a t =>
    rw [List.dropWhile_cons]
    have := h a rfl
    simp [this]

theorem trimStart_idem (s : List Char) : trimStart (trimStart s) = trimStart s :=
  dropWhile_eq_self_of_head?_false _ _ (dropWhile_head?_false _ s)

theorem trimEnd_getLast?_false (s : List Char) :
    ∀ c, (trimEnd s).getLast? = some c → isRustWhitespace c = false := by
  intro c h
  unfold trimEnd at h
  rw [List.getLast?_reverse] at h
  exact dropWhile_head?_false _ s.reverse c h

theorem trimEnd_eq_self_of_getLast?_false (s : List Char)
    (h : ∀ c, s.getLast? = some c → isRustWhitespace c = false) : trimEnd s = s := by
  unfold trimEnd
  rw [dropWhile_eq_self_of_head?_false _ _ (fun c hc => h c (by rw [← List.head?_reverse]; exact hc)),
      List.reverse_reverse]

theorem trimEnd_idem (s : List Char) : trimEnd (trimEnd s) = trimEnd s :=
  trimEnd_eq_self_of_getLast?_false _ (trimEnd_getLast?_false s)

theorem trimEnd_trim (s : List Char) : trimEnd (trim s) = trim s := by
  unfold trim
  exact trimEnd_idem _

theorem trim_getLast?_false (s : List Char) :
    ∀ c, (trim s).getLast? = some c → isRustWhitespace c = false := by
  unfold trim
  exact trimEnd_getLast?_false _

theorem getLast?_false_of_trimEnd_self {v : List Char} (h : trimEnd v = v) :
    ∀ c, v.getLast? = some c → isRustWhitespace c = false := by
  intro c hc
  exact trimEnd_getLast?_false v c (by rw [h]; exact hc)

theorem trimStart_getLast? (s : List Char) (h : trimStart s ≠ []) :
    (trimStart s).getLast? = s.getLast? := by
  unfold trimStart at h ⊢
  obtain ⟨w, hw⟩ := List.dropWhile_suffix (l := s) isRustWhitespace
  conv_rhs => rw [← hw]
  rw [List.getLast?_append_of_ne_nil _ h]

theorem trim_of_trimEnd_self {v : List Char} (h : trimEnd v = v) : trim v = trimStart v := by
  unfold trim
  apply trimEnd_eq_self_of_getLast?_false
  intro c hc
  have hne : trimStart v ≠ [] := by
    intro hh
    rw [hh] at hc
    simp at hc
  rw [trimStart_getLast? v hne] at hc
  exact getLast?_false_of_trimEnd_self h c hc

theorem trim_ne_nil_of_trimEnd_self {v : List Char} (hv : v ≠ []) (h : trimEnd v = v) :
    trim v ≠ [] := by
  rw [trim_of_trimEnd_self h]
  intro hts
  unfold trimStart at hts
  rw [List.dropWhile_eq_nil_iff] at hts
  obtain ⟨c, hc⟩ : ∃ c, v.getLast? = some c := by
    cases hgl : v.getLast? with
    | none => exact absurd (List.getLast?_eq_none_iff.mp hgl) hv
    | some c => exact ⟨c, rfl⟩
  have hws : isRustWhitespace c = true := hts c (List.mem_of_getLast?_eq_some hc)
  rw [getLast?_false_of_trimEnd_self h c hc] at hws
  exact Bool.noConfusion hws

theorem trimEnd_exists_append (s : List Char) : ∃ w, trimEnd s ++ w = s := by
  obtain ⟨w, hw⟩ := List.dropWhile_suffix (l := s.reverse) isRustWhitespace
  refine ⟨w.reverse, ?_⟩
  unfold trimEnd
  rw [← List.reverse_append, hw, List.reverse_reverse]

theorem trimEnd_head? (s : List Char) (h : trimEnd s ≠ []) :
    (trimEnd s).head? = s.head? := by
  obtain ⟨w, hw⟩ := trimEnd_exists_append s
  conv_rhs => rw [← hw]
  rw [List.head?_append_of_ne_nil _ h]

theorem trim_idem (s : List Char) : trim (trim s) = trim s := by
  conv_lhs => rw [trim]
  by_cases h : trim s = []
  · rw [h]
    rfl
  · have hh : (trim s).head? = (trimStart s).head? := by
      unfold trim at h ⊢
      exact trimEnd_head? _ h
    have hts : trimStart (trim s) = trim s := by
      apply dropWhile_eq_self_of_head?_false
      intro c hc
      rw [hh] at hc
      exact dropWhile_head?_false _ s c hc
    rw [hts]
    exact trimEnd_trim s

theorem trimStart_ws_prepend {w z : List Char}
    (hw : ∀ x ∈ w, isRustWhitespace x = true) : trimStart (w ++ z) = trimStart z := by
  induction w with
  | nil => rfl
  | cons a t ih =>
    show trimStart (a :: (t ++ z)) = _
    unfold trimStart
    rw [List.dropWhile_cons, if_pos (hw a (List.mem_cons_self a t))]
    exact ih (fun x hx => hw x (List.mem_cons_of_mem a hx))

theorem trim_ws_prepend {w z : List Char}
    (hw : ∀ x ∈ w, isRustWhitespace x = true) : trim (w ++ z) = trim z := by
  unfold trim
  rw [trimStart_ws_prepend hw]

/-! ### Splitting lemmas for the specification-side splitter -/

theorem splitOnByte_ne_nil (d : Nat) (s : List Char) : splitOnByte d s ≠ [] := by
  cases s with
  | nil => simp [splitOnByte]
  | cons c cs =>
    unfold splitOnByte
    split_ifs
    · simp
    · cases splitOnByte d cs <;> simp

theorem splitOnByte_no_delim {d : Nat} {u : List Char} (h : ∀ x ∈ u, x.toNat ≠ d) :
    splitOnByte d u = [u] := by
  induction u with
  | nil => rfl
  | cons c cs ih =>
    conv_lhs => unfold splitOnByte
    rw [if_neg (by exact_mod_cast h c (List.mem_cons_self c cs))]
    rw [ih (fun x hx => h x (List.mem_cons_of_mem c hx))]

theorem splitOnByte_append_delim {d : Nat} {p r : List Char} {c0 : Char}
    (hp : ∀ x ∈ p, x.toNat ≠ d) (hc : c0.toNat = d) :
    splitOnByte d (p ++ c0 :: r) = p :: splitOnByte d r := by
  induction p with
  | nil =>
    show splitOnByte d (c0 :: r) = [] :: splitOnByte d r
    conv_lhs => unfold splitOnByte
    rw [if_pos hc]
  | cons a t ih =>
    have ha : a.toNat ≠ d := hp a (List.mem_cons_self a t)
    show splitOnByte d (a :: (t ++ c0 :: r)) = (a :: t) :: splitOnByte d r
    conv_lhs => unfold splitOnByte
    rw [if_neg (by exact_mod_cast ha)]
    rw [ih (fun x hx => hp x (List.mem_cons_of_mem a hx))]

theorem splitOnByte_ws_prepend {d : Nat} {w : List Char} (z : List Char)
    (hw : ∀ x ∈ w, x.toNat ≠ d) :
    ∃ h t, splitOnByte d z = h :: t ∧ splitOnByte d (w ++ z) = (w ++ h) :: t := by
  induction w with
  | nil =>
    cases hsz : splitOnByte d z with
    | nil => exact absurd hsz (splitOnByte_ne_nil d z)
    | cons h t => exact ⟨h, t, rfl, by simpa using hsz⟩
  | cons a ws ih =>
    obtain ⟨h, t, hz, hwz⟩ := ih (fun x hx => hw x (List.mem_cons_of_mem a hx))
    refine ⟨h, t, hz, ?_⟩
    show splitOnByte d (a :: (ws ++ z)) = ((a :: ws) ++ h) :: t
    conv_lhs => unfold splitOnByte
    rw [if_neg (by exact_mod_cast hw a (List.mem_cons_self a ws))]
    rw [hwz]
    rfl

theorem ws_toNat_ne {d : Nat} (hd : d < 0x80) (hw : wsByte d = false) {x : Char}
    (hx : isRustWhitespace x = true) : x.toNat ≠ d := by
  intro he
  unfold isRustWhitespace at hx
  rw [he] at hx
  simp only [Bool.or_eq_true, Bool.and_eq_true, decide_eq_true_eq, or_assoc] at hx
  have h9 : d ≠ 9 := by intro hh; subst hh; simp [wsByte] at hw
  have hA : d ≠ 10 := by intro hh; subst hh; simp [wsByte] at hw
  have hB : d ≠ 11 := by intro hh; subst hh; simp [wsByte] at hw
  have hC : d ≠ 12 := by intro hh; subst hh; simp [wsByte] at hw
  have hD : d ≠ 13 := by intro hh; subst hh; simp [wsByte] at hw
  have h20 : d ≠ 32 := by intro hh; subst hh; simp [wsByte] at hw
  rcases hx with h|h|h|h|h|h|h|h|h|h|h|h|h|h|h <;> omega

theorem splitOnByte_trim_stable {d : Nat} (hd : d < 0x80) (hw : wsByte d = false)
    {r : List Char} (hter : trimEnd r = r) :
    (splitOnByte d r).map trim = (splitOnByte d (trim r)).map trim := by
  have htr : trim r = trimStart r := trim_of_trimEnd_self hter
  have hsplit : r.takeWhile isRustWhitespace ++ trimStart r = r :=
    List.takeWhile_append_dropWhile isRustWhitespace r
  have hwsall : ∀ x ∈ r.takeWhile isRustWhitespace, isRustWhitespace x = true :=
    fun x hx => List.mem_takeWhile_imp hx
  have hwd : ∀ x ∈ r.takeWhile isRustWhitespace, x.toNat ≠ d :=
    fun x hx => ws_toNat_ne hd hw (hwsall x hx)
  obtain ⟨h, t, hz, hwz⟩ := splitOnByte_ws_prepend (trimStart r) hwd
  rw [htr, hz]
  conv_lhs => rw [← hsplit]
  rw [hwz]
  show trim (r.takeWhile isRustWhitespace ++ h) :: t.map trim = trim h :: t.map trim
  rw [trim_ws_prepend hwsall]

theorem headIsDelim_false_iff (d : Nat) (l : List Char) :
    headIsDelim d l = false ↔ ∀ c, l.head? = some c → c.toNat ≠ d := by
  cases l with
  | nil => simp [headIsDelim]
  | cons c cs => simp [headIsDelim]

theorem enumFieldsGo_nil (d : Nat) {fuel : Nat} (h : 0 < fuel) :
    enumFieldsGo d fuel [] = some [] := by
  cases fuel with
  | zero => omega
  | succ fuel => rfl

/-- The tokenizer engine: over a record with no trailing whitespace and
no trailing delimiter (after trimming), an ASCII non-whitespace
delimiter splits the record into the trimmed substrings between
delimiter occurrences. -/
theorem enumFieldsGo_split {d : Nat} (hd : d < 0x80) (hw : wsByte d = false) :
    ∀ fuel v, v.length < fuel → v ≠ [] → trimEnd v = v →
      headIsDelim d (trim v).reverse = false →
      enumFieldsGo d fuel v = some ((splitOnByte d (trim v)).map trim) := by
  intro fuel
  induction fuel with
  | zero =>
    intro v hlen
    omega
  | succ fuel ih =>
    intro v hlen hne hte hnd
    have hvpos : 1 ≤ v.length := by
      cases v with
      | nil => exact absurd rfl hne
      | cons a t => simp
    have hut : trim v ≠ [] := trim_ne_nil_of_trimEnd_self hne hte
    rw [enumFieldsGo, if_neg (by omega)]
    rcases firstDelimSplit d (trim v) with hno | ⟨p, c0, r, he, hc, hp⟩
    · rw [next_field_no_delim hd hno]
      show (enumFieldsGo d fuel []).map (fun fs => trim v :: fs) =
        some ((splitOnByte d (trim v)).map trim)
      rw [enumFieldsGo_nil d (by omega), splitOnByte_no_delim hno]
      show some [trim v] = some [trim (trim v)]
      rw [trim_idem]
    · by_cases hr : r = []
      · exfalso
        subst hr
        have hgl : (trim v).getLast? = some c0 := by
          rw [he, List.getLast?_append_of_ne_nil _ (by simp)]
          rfl
        have := (headIsDelim_false_iff d (trim v).reverse).mp hnd c0
          (by rw [List.head?_reverse]; exact hgl)
        exact this hc
      · have hglr : r.getLast? = (trim v).getLast? := by
          rw [he, List.getLast?_append_of_ne_nil _ (by simp)]
          rw [show c0 :: r = [c0] ++ r from rfl, List.getLast?_append_of_ne_nil _ hr]
        have hglv : ∀ c, v.getLast? = some c → isRustWhitespace c = false :=
          getLast?_false_of_trimEnd_self hte
        have hglt : (trim v).getLast? = v.getLast? := by
          rw [trim_of_trimEnd_self hte]
          exact trimStart_getLast? v (by rw [← trim_of_trimEnd_self hte]; exact hut)
        have hter : trimEnd r = r := by
          apply trimEnd_eq_self_of_getLast?_false
          intro c hc'
          apply hglv c
          rw [← hglt, ← hglr]
          exact hc'
        have hutr : trim r ≠ [] := trim_ne_nil_of_trimEnd_self hr hter
        have hgltr : (trim r).getLast? = r.getLast? := by
          rw [trim_of_trimEnd_self hter]
          exact trimStart_getLast? r (by rw [← trim_of_trimEnd_self hter]; exact hutr)
        have hndr : headIsDelim d (trim r).reverse = false := by
          rw [headIsDelim_false_iff]
          intro c hc'
          rw [List.head?_reverse, hgltr, hglr, ← List.head?_reverse] at hc'
          exact (headIsDelim_false_iff d (trim v).reverse).mp hnd c hc'
        have hrlen : r.length < fuel := by
          have h1 : (trim v).length = p.length + (r.length + 1) := by
            rw [he]
            simp
          have h2 := trim_length_le v
          omega
        rw [next_field_first_delim hd he hc hp]
        show (enumFieldsGo d fuel r).map (fun fs => trim p :: fs) =
          some ((splitOnByte d (trim v)).map trim)
        rw [ih r hrlen hr hter hndr]
        rw [he, splitOnByte_append_delim hp hc]
        show some (trim p :: (splitOnByte d (trim r)).map trim) =
          some (trim p :: (splitOnByte d r).map trim)
        rw [splitOnByte_trim_stable hd hw hter]

/-- The `enum_fields` consequence of the engine. -/
theorem enum_fields_split {d : Nat} (hd : d < 0x80) (hw : wsByte d = false)
    {t : List Char} (h0 : trim t ≠ []) (h2 : headIsDelim d (trim t).reverse = false) :
    enum_fields d t = some ((splitOnByte d (trim t)).map trim) := by
  unfold enum_fields
  have h := enumFieldsGo_split hd hw (t.length + 1) (trim t)
    (by have := trim_length_le t; omega) h0 (trimEnd_trim t)
    (by rw [trim_idem]; exact h2)
  rw [trim_idem] at h
  exact h

/-! ### Record-reader lemmas -/

theorem readUntilSplit_append {d : Nat} {as : List Nat} (h : d ∉ as) (bs : List Nat) :
    readUntilSplit d (as ++ d :: bs) = (as ++ [d], bs) := by
  induction as with
  | nil =>
    show readUntilSplit d (d :: bs) = ([d], bs)
    unfold readUntilSplit
    rw [if_pos rfl]
  | cons a t ih =>
    have ha : a ≠ d := fun hh => h (by simp [hh])
    show readUntilSplit d (a :: (t ++ d :: bs)) = ((a :: t) ++ [d], bs)
    unfold readUntilSplit
    rw [if_neg ha, ih (fun hm => h (List.mem_cons_of_mem a hm))]
    rfl

theorem next_record_peeked {r : DataRecordReader} {rec : DataRecord}
    (h : r.peek_buf = some rec) :
    next_record r = some (Except.ok rec, { r with peek_buf := none }) := by
  unfold next_record
  rw [h]

theorem peek_record_peeked {r : DataRecordReader} {rec : DataRecord}
    (h : r.peek_buf = some rec) :
    peek_record r = some (Except.ok rec, r) := by
  unfold peek_record
  rw [h]

theorem peek_record_none_buf {r : DataRecordReader} (hb : r.peek_buf = none)
    {rec : DataRecord} {r1 : DataRecordReader}
    (hn : next_record r = some (Except.ok rec, r1)) :
    peek_record r = some (Except.ok rec, { r1 with peek_buf := some rec }) := by
  unfold peek_record
  rw [hb, hn]

theorem peek_record_sets {r r' : DataRecordReader} {rec : DataRecord}
    (h : peek_record r = some (Except.ok rec, r')) :
    r'.peek_buf = some rec := by
  unfold peek_record at h
  cases hb : r.peek_buf with
  | some rec0 =>
    rw [hb] at h
    simp only [Option.some.injEq, Prod.mk.injEq] at h
    obtain ⟨h1, h2⟩ := h
    rw [← h2, hb]
    exact congrArg some (Except.ok.inj h1)
  | none =>
    rw [hb] at h
    cases hn : next_record r with
    | none =>
      rw [hn] at h
      exact absurd h (by simp)
    | some pr =>
      rw [hn] at h
      obtain ⟨res, r1⟩ := pr
      cases res with
      | error e => simp at h
      | ok rec0 =>
        simp only [Option.some.injEq, Prod.mk.injEq] at h
        obtain ⟨h1, h2⟩ := h
        have hrec : rec0 = rec := Except.ok.inj h1
        rw [← h2, hrec]

theorem peek_record_again {r r' : DataRecordReader} {rec : DataRecord}
    (h : peek_record r = some (Except.ok rec, r')) :
    peek_record r' = some (Except.ok rec, r') :=
  peek_record_peeked (peek_record_sets h)

theorem next_record_after_peek {r r' : DataRecordReader} {rec : DataRecord}
    (h : peek_record r = some (Except.ok rec, r')) :
    next_record r' = some (Except.ok rec, { r' with peek_buf := none }) :=
  next_record_peeked (peek_record_sets h)

theorem mkReader_def (fd : Nat) (s : List Nat) :
    mkReader fd s = ⟨s, 10, fd, [], none⟩ := rfl

theorem next_record_eof (fd : Nat) :
    next_record (mkReader fd []) = some (Except.ok DataRecord.EOF, mkReader fd []) := rfl

theorem trim_newline : trim ['\n'] = [] := by decide

theorem enum_fields_newline (fd : Nat) : enum_fields fd ['\n'] = some [] := by
  unfold enum_fields
  rw [trim_newline]
  exact enumFieldsGo_nil fd (by omega)

theorem classify_newline (fd : Nat) : classify fd ['\n'] = DataRecord.Blank := by
  unfold classify
  rw [if_neg (by decide), enum_fields_newline]

/-- Reading one well-formed line from a clean reader produces exactly the
line's classification and consumes exactly that line from the source. -/
theorem next_record_line {fd : Nat} (hfd : fd < 0x80) (l : List Char) (rest : List Nat)
    (h10 : 10 ∉ utf8Encode l) :
    next_record (mkReader fd (utf8Encode l ++ 10 :: rest)) =
      some (Except.ok (classify fd (l ++ ['\n'])), mkReader fd rest) := by
  have hsplit : readUntilSplit 10 (utf8Encode l ++ 10 :: rest) = (utf8Encode l ++ [10], rest) :=
    readUntilSplit_append h10 rest
  have hbuf : utf8Encode l ++ [10] = utf8Encode (l ++ ['\n']) := by
    rw [utf8Encode_append]
    rfl
  unfold next_record
  simp only [mkReader_def]
  show (let taken := (readUntilSplit 10 (utf8Encode l ++ 10 :: rest)).1
        let rest' := (readUntilSplit 10 (utf8Encode l ++ 10 :: rest)).2
        if taken.length = 0 then
          some (Except.ok DataRecord.EOF,
            ({ stream := rest', record_delimiter := 10, field_delimiter := fd,
               buffer := [] ++ taken, peek_buf := none } : DataRecordReader))
        else if (([] : List Nat) ++ taken).head? = some 35 then
          match from_utf8 ([] ++ taken) with
          | none => some (Except.error ReaderError.FromUTF8,
              ({ stream := rest', record_delimiter := 10, field_delimiter := fd,
                 buffer := [] ++ taken, peek_buf := none } : DataRecordReader))
          | some s => some (Except.ok (DataRecord.Comment s),
              ({ stream := rest', record_delimiter := 10, field_delimiter := fd,
                 buffer := [], peek_buf := none } : DataRecordReader))
        else
          match from_utf8 ([] ++ taken) with
          | none => some (Except.error ReaderError.FromUTF8,
              ({ stream := rest', record_delimiter := 10, field_delimiter := fd,
                 buffer := [] ++ taken, peek_buf := none } : DataRecordReader))
          | some s =>
            match enum_fields fd s with
            | none => none
            | some fields =>
              if fields.length = 0 then
                some (Except.ok DataRecord.Blank,
                  ({ stream := rest', record_delimiter := 10, field_delimiter := fd,
                     buffer := [], peek_buf := none } : DataRecordReader))
              else
                some (Except.ok (DataRecord.Fields fields),
                  ({ stream := rest', record_delimiter := 10, field_delimiter := fd,
                     buffer := [], peek_buf := none } : DataRecordReader))) =
      some (Except.ok (classify fd (l ++ ['\n'])), mkReader fd rest)
  simp only [hsplit, List.nil_append]
  rw [if_neg (by simp)]
  rw [hbuf, from_utf8_encode]
  cases l with
  | nil =>
    simp only [List.nil_append]
    rw [if_neg (by decide)]
    show (match enum_fields fd ['\n'] with
      | none => none
      | some fields =>
        if fields.length = 0 then
          some (Except.ok DataRecord.Blank,
            ({ stream := rest, record_delimiter := 10, field_delimiter := fd,
               buffer := [], peek_buf := none } : DataRecordReader))
        else
          some (Except.ok (DataRecord.Fields fields),
            ({ stream := rest, record_delimiter := 10, field_delimiter := fd,
               buffer := [], peek_buf := none } : DataRecordReader))) =
      some (Except.ok (classify fd ['\n']), mkReader fd rest)
    rw [enum_fields_newline, classify_newline]
    rfl
  | cons c0 lt =>
    have hhead : (utf8Encode ((c0 :: lt) ++ ['\n'])).head? = (utf8EncodeChar c0).head? := by
      show (utf8EncodeChar c0 ++ utf8Encode (lt ++ ['\n'])).head? = _
      exact List.head?_append_of_ne_nil _ (utf8EncodeChar_ne_nil c0)
    by_cases hc0 : c0 = '#'
    · rw [if_pos (by rw [hhead]; exact (head_utf8EncodeChar_eq_35_iff c0).mpr hc0)]
      show some (Except.ok (DataRecord.Comment ((c0 :: lt) ++ ['\n'])),
          ({ stream := rest, record_delimiter := 10, field_delimiter := fd,
             buffer := [], peek_buf := none } : DataRecordReader)) =
        some (Except.ok (classify fd ((c0 :: lt) ++ ['\n'])), mkReader fd rest)
      unfold classify
      rw [if_pos (by subst hc0; rfl)]
      rfl
    · rw [if_neg (by rw [hhead]
                     intro hcon
                     exact hc0 ((head_utf8EncodeChar_eq_35_iff c0).mp hcon))]
      obtain ⟨fields, hfields⟩ :=
        Option.isSome_iff_exists.mp (enum_fields_isSome hfd ((c0 :: lt) ++ ['\n']))
      show (match enum_fields fd ((c0 :: lt) ++ ['\n']) with
        | none => none
        | some fields =>
          if fields.length = 0 then
            some (Except.ok DataRecord.Blank,
              ({ stream := rest, record_delimiter := 10, field_delimiter := fd,
                 buffer := [], peek_buf := none } : DataRecordReader))
          else
            some (Except.ok (DataRecord.Fields fields),
              ({ stream := rest, record_delimiter := 10, field_delimiter := fd,
                 buffer := [], peek_buf := none } : DataRecordReader))) =
        some (Except.ok (classify fd ((c0 :: lt) ++ ['\n'])), mkReader fd rest)
      unfold classify
      rw [if_neg (by simp only [List.cons_append, List.head?_cons, Option.some.injEq]
                     exact hc0)]
      rw [hfields]
      cases fields with
      | nil => rfl
      | cons f fs =>
        show (if (f :: fs).length = 0 then
            some (Except.ok DataRecord.Blank,
              ({ stream := rest, record_delimiter := 10, field_delimiter := fd,
                 buffer := [], peek_buf := none } : DataRecordReader))
          else
            some (Except.ok (DataRecord.Fields (f :: fs)),
              ({ stream := rest, record_delimiter := 10, field_delimiter := fd,
                 buffer := [], peek_buf := none } : DataRecordReader))) =
          some (Except.ok (DataRecord.Fields (f :: fs)), mkReader fd rest)
        rw [if_neg (by simp)]
        rfl

/-! ### Specification-side helpers for blocks -/

theorem peek_record_line {fd : Nat} (hfd : fd < 0x80) (l : List Char) (rest : List Nat)
    (h10 : 10 ∉ utf8Encode l) :
    peek_record (mkReader fd (utf8Encode l ++ 10 :: rest)) =
      some (Except.ok (classify fd (l ++ ['\n'])),
        { mkReader fd rest with peek_buf := some (classify fd (l ++ ['\n'])) }) :=
  peek_record_none_buf rfl (next_record_line hfd l rest h10)

theorem peek_record_eof (fd : Nat) :
    peek_record (mkReader fd []) =
      some (Except.ok DataRecord.EOF, { mkReader fd [] with peek_buf := some DataRecord.EOF }) :=
  peek_record_none_buf rfl (next_record_eof fd)

theorem classify_ne_EOF (fd : Nat) (line : List Char) : classify fd line ≠ DataRecord.EOF := by
  unfold classify
  split_ifs
  · simp
  · cases h : enum_fields fd line with
    | none => simp
    | some fields => cases fields <;> simp

theorem linesWF_cons {l : List Char} {ls : List (List Char)} (h : linesWF (l :: ls) = true) :
    (10 ∉ utf8Encode l) ∧ linesWF ls = true := by
  unfold linesWF at h ⊢
  simp only [List.all_cons, Bool.and_eq_true] at h
  refine ⟨?_, h.2⟩
  intro hmem
  have := (List.all_eq_true.mp h.1) 10 hmem
  simp at this

theorem encodeLines_cons (l : List Char) (ls : List (List Char)) :
    encodeLines (l :: ls) = utf8Encode l ++ 10 :: encodeLines ls := by
  show (utf8Encode l ++ [10]) ++ encodeLines ls = _
  rw [List.append_assoc]
  rfl

theorem recordsOf_cons (fd : Nat) (l : List Char) (ls : List (List Char)) :
    recordsOf fd (l :: ls) = classify fd (l ++ ['\n']) :: recordsOf fd ls := rfl

theorem maxRunRows_cons_fields (fs : List (List Char)) (rs : List DataRecord) :
    maxRunRows (DataRecord.Fields fs :: rs) = fs :: maxRunRows rs := by
  unfold maxRunRows
  rw [List.takeWhile_cons, if_pos (by rfl)]
  rfl

theorem maxRunRows_cons_comment (s : List Char) (rs : List DataRecord) :
    maxRunRows (DataRecord.Comment s :: rs) = maxRunRows rs := by
  unfold maxRunRows
  rw [List.takeWhile_cons, if_pos (by rfl)]
  rfl

theorem maxRunRows_cons_blank (rs : List DataRecord) :
    maxRunRows (DataRecord.Blank :: rs) = [] := by
  unfold maxRunRows
  rw [List.takeWhile_cons, if_neg (by simp [isFC])]
  rfl

theorem blockBoundaryState_comment {fd : Nat} {l : List Char} {ls : List (List Char)}
    {s : List Char} (hc : classify fd (l ++ ['\n']) = DataRecord.Comment s) :
    blockBoundaryState fd (l :: ls) = blockBoundaryState fd ls := by
  unfold blockBoundaryState boundaryRec
  rw [recordsOf_cons, hc]
  rw [List.takeWhile_cons, if_pos (by rfl), List.dropWhile_cons, if_pos (by rfl)]
  rfl

theorem blockBoundaryState_fields {fd : Nat} {l : List Char} {ls : List (List Char)}
    {fs : List (List Char)} (hc : classify fd (l ++ ['\n']) = DataRecord.Fields fs) :
    blockBoundaryState fd (l :: ls) = blockBoundaryState fd ls := by
  unfold blockBoundaryState boundaryRec
  rw [recordsOf_cons, hc]
  rw [List.takeWhile_cons, if_pos (by rfl), List.dropWhile_cons, if_pos (by rfl)]
  rfl

theorem blockBoundaryState_blank {fd : Nat} {l : List Char} {ls : List (List Char)}
    (hc : classify fd (l ++ ['\n']) = DataRecord.Blank) :
    blockBoundaryState fd (l :: ls) =
      { mkReader fd (encodeLines ls) with peek_buf := some DataRecord.Blank } := by
  unfold blockBoundaryState boundaryRec
  rw [recordsOf_cons, hc]
  rw [List.takeWhile_cons, if_neg (by simp [isFC]), List.dropWhile_cons, if_neg (by simp [isFC])]
  rfl

theorem blanksCount_cons_blank (rs : List DataRecord) :
    blanksCount (DataRecord.Blank :: rs) = blanksCount rs + 1 := by
  unfold blanksCount
  rw [List.takeWhile_cons, if_pos (by rfl)]
  simp

theorem blanksCount_cons_comment (s : List Char) (rs : List DataRecord) :
    blanksCount (DataRecord.Comment s :: rs) = blanksCount rs + 1 := by
  unfold blanksCount
  rw [List.takeWhile_cons, if_pos (by rfl)]
  simp

theorem blanksCount_cons_fields (fs : List (List Char)) (rs : List DataRecord) :
    blanksCount (DataRecord.Fields fs :: rs) = 0 := by
  unfold blanksCount
  rw [List.takeWhile_cons, if_neg (by simp [isBC])]
  rfl

theorem blanksBoundaryState_blank {fd : Nat} {l : List Char} {ls : List (List Char)}
    (hc : classify fd (l ++ ['\n']) = DataRecord.Blank) :
    blanksBoundaryState fd (l :: ls) = blanksBoundaryState fd ls := by
  unfold blanksBoundaryState blanksBoundary
  rw [recordsOf_cons, hc]
  rw [List.takeWhile_cons, if_pos (by rfl), List.dropWhile_cons, if_pos (by rfl)]
  rfl

theorem blanksBoundaryState_comment {fd : Nat} {l : List Char} {ls : List (List Char)}
    {s : List Char} (hc : classify fd (l ++ ['\n']) = DataRecord.Comment s) :
    blanksBoundaryState fd (l :: ls) = blanksBoundaryState fd ls := by
  unfold blanksBoundaryState blanksBoundary
  rw [recordsOf_cons, hc]
  rw [List.takeWhile_cons, if_pos (by rfl), List.dropWhile_cons, if_pos (by rfl)]
  rfl

theorem blanksBoundaryState_fields {fd : Nat} {l : List Char} {ls : List (List Char)}
    {fs : List (List Char)} (hc : classify fd (l ++ ['\n']) = DataRecord.Fields fs) :
    blanksBoundaryState fd (l :: ls) =
      { mkReader fd (encodeLines ls) with peek_buf := some (DataRecord.Fields fs) } := by
  unfold blanksBoundaryState blanksBoundary
  rw [recordsOf_cons, hc]
  rw [List.takeWhile_cons, if_neg (by simp [isBC]), List.dropWhile_cons, if_neg (by simp [isBC])]
  rfl

/-! ### Single-step unfolding of the block-reader loops -/

theorem if_isEmpty_getD {T : Type} (rows : List (List T)) :
    (if rows.isEmpty then (none : Option (List (List T))) else some rows).getD [] = rows := by
  cases rows <;> rfl

theorem nextBlockGo_peek_eof {PE T : Type} (parse : List Char → Except PE T) {f : Nat}
    {r r1 : DataRecordReader} (hp : peek_record r = some (Except.ok DataRecord.EOF, r1)) :
    nextBlockGo parse (f + 1) r = some (Except.ok none, r1) := by
  rw [nextBlockGo, hp]

theorem nextBlockGo_peek_blank {PE T : Type} (parse : List Char → Except PE T) {f : Nat}
    {r r1 : DataRecordReader} (hp : peek_record r = some (Except.ok DataRecord.Blank, r1)) :
    nextBlockGo parse (f + 1) r = some (Except.ok none, r1) := by
  rw [nextBlockGo, hp]

theorem nextBlockGo_peek_comment {PE T : Type} (parse : List Char → Except PE T) {f : Nat}
    {r r1 : DataRecordReader} {s : List Char}
    (hp : peek_record r = some (Except.ok (DataRecord.Comment s), r1)) :
    nextBlockGo parse (f + 1) r = nextBlockGo parse f { r1 with peek_buf := none } := by
  rw [nextBlockGo, hp]
  show (match next_record r1 with
    | none => none
    | some (Except.error e, r2) => some (Except.error (BlockError.reader e), r2)
    | some (Except.ok (DataRecord.Comment _), r2) => nextBlockGo parse f r2
    | some (Except.ok (DataRecord.Fields fields), r2) =>
      match collectResults parse fields with
      | Except.error e => some (Except.error (BlockError.parse e), r2)
      | Except.ok row =>
        match nextBlockGo parse f r2 with
        | none => none
        | some (Except.error e, r3) => some (Except.error e, r3)
        | some (Except.ok rows, r3) => some (Except.ok (some (row :: rows.getD [])), r3)
    | some (Except.ok DataRecord.EOF, _) => none
    | some (Except.ok DataRecord.Blank, _) => none) =
    nextBlockGo parse f { r1 with peek_buf := none }
  rw [next_record_peeked (peek_record_sets hp)]

theorem nextBlockGo_peek_fields {PE T : Type} (parse : List Char → Except PE T) {f : Nat}
    {r r1 : DataRecordReader} {fs : List (List Char)}
    (hp : peek_record r = some (Except.ok (DataRecord.Fields fs), r1)) :
    nextBlockGo parse (f + 1) r =
      (match collectResults parse fs with
       | Except.error e => some (Except.error (BlockError.parse e), { r1 with peek_buf := none })
       | Except.ok row =>
         match nextBlockGo parse f { r1 with peek_buf := none } with
         | none => none
         | some (Except.error e, r3) => some (Except.error e, r3)
         | some (Except.ok rows, r3) => some (Except.ok (some (row :: rows.getD [])), r3)) := by
  rw [nextBlockGo, hp]
  show (match next_record r1 with
    | none => none
    | some (Except.error e, r2) => some (Except.error (BlockError.reader e), r2)
    | some (Except.ok (DataRecord.Comment _), r2) => nextBlockGo parse f r2
    | some (Except.ok (DataRecord.Fields fields), r2) =>
      match collectResults parse fields with
      | Except.error e => some (Except.error (BlockError.parse e), r2)
      | Except.ok row =>
        match nextBlockGo parse f r2 with
        | none => none
        | some (Except.error e, r3) => some (Except.error e, r3)
        | some (Except.ok rows, r3) => some (Except.ok (some (row :: rows.getD [])), r3)
    | some (Except.ok DataRecord.EOF, _) => none
    | some (Except.ok DataRecord.Blank, _) => none) = _
  rw [next_record_peeked (peek_record_sets hp)]

theorem consumeBlanksGo_peek_eof {f : Nat} {r r1 : DataRecordReader}
    (hp : peek_record r = some (Except.ok DataRecord.EOF, r1)) :
    consumeBlanksGo (f + 1) r = some (Except.ok 0, r1) := by
  rw [consumeBlanksGo, hp]

theorem consumeBlanksGo_peek_fields {f : Nat} {r r1 : DataRecordReader} {fs : List (List Char)}
    (hp : peek_record r = some (Except.ok (DataRecord.Fields fs), r1)) :
    consumeBlanksGo (f + 1) r = some (Except.ok 0, r1) := by
  rw [consumeBlanksGo, hp]

theorem consumeBlanksGo_peek_blank {f : Nat} {r r1 : DataRecordReader}
    (hp : peek_record r = some (Except.ok DataRecord.Blank, r1)) :
    consumeBlanksGo (f + 1) r =
      (match consumeBlanksGo f { r1 with peek_buf := none } with
       | none => none
       | some (Except.error e, r3) => some (Except.error e, r3)
       | some (Except.ok n, r3) => some (Except.ok (n + 1), r3)) := by
  rw [consumeBlanksGo, hp]
  show (match next_record r1 with
    | none => none
    | some (Except.error _, _) => none
    | some (Except.ok _, r2) =>
      match consumeBlanksGo f r2 with
      | none => none
      | some (Except.error e, r3) => some (Except.error e, r3)
      | some (Except.ok n, r3) => some (Except.ok (n + 1), r3)) = _
  rw [next_record_peeked (peek_record_sets hp)]

theorem consumeBlanksGo_peek_comment {f : Nat} {r r1 : DataRecordReader} {s : List Char}
    (hp : peek_record r = some (Except.ok (DataRecord.Comment s), r1)) :
    consumeBlanksGo (f + 1) r =
      (match consumeBlanksGo f { r1 with peek_buf := none } with
       | none => none
       | some (Except.error e, r3) => some (Except.error e, r3)
       | some (Except.ok n, r3) => some (Except.ok (n + 1), r3)) := by
  rw [consumeBlanksGo, hp]
  show (match next_record r1 with
    | none => none
    | some (Except.error _, _) => none
    | some (Except.ok _, r2) =>
      match consumeBlanksGo f r2 with
      | none => none
      | some (Except.error e, r3) => some (Except.error e, r3)
      | some (Except.ok n, r3) => some (Except.ok (n + 1), r3)) = _
  rw [next_record_peeked (peek_record_sets hp)]

/-! ### The block-reader loop characterizations -/

theorem nextBlockGo_run {PE T : Type} (parse : List Char → Except PE T) {fd : Nat}
    (hfd : fd < 0x80) :
    ∀ fuel lines, (encodeLines lines).length < fuel → linesWF lines = true →
    ∀ rows : List (List T),
      parseRows parse (maxRunRows (recordsOf fd lines)) = Except.ok rows →
      nextBlockGo parse fuel (mkReader fd (encodeLines lines)) =
        some (Except.ok (if rows.isEmpty then none else some rows),
              blockBoundaryState fd lines) := by
  intro fuel lines
  induction lines generalizing fuel with
  | nil =>
    intro hlen hwf rows hrows
    have h0 : rows = [] := by
      have he : (Except.ok [] : Except PE (List (List T))) = Except.ok rows := hrows
      exact (Except.ok.inj he).symm
    subst h0
    cases fuel with
    | zero => simp at hlen
    | succ f => exact nextBlockGo_peek_eof parse (peek_record_eof fd)
  | cons l ls ih =>
    intro hlen hwf rows hrows
    obtain ⟨hl10, hls⟩ := linesWF_cons hwf
    cases fuel with
    | zero => simp at hlen
    | succ f =>
      have hflen : (encodeLines ls).length < f := by
        rw [encodeLines_cons] at hlen
        simp only [List.length_append, List.length_cons] at hlen
        omega
      have hpeek : peek_record (mkReader fd (encodeLines (l :: ls))) =
          some (Except.ok (classify fd (l ++ ['\n'])),
            { mkReader fd (encodeLines ls) with
                peek_buf := some (classify fd (l ++ ['\n'])) }) := by
        rw [encodeLines_cons]
        exact peek_record_line hfd l _ hl10
      cases hc : classify fd (l ++ ['\n']) with
      | EOF => exact absurd hc (classify_ne_EOF fd _)
      | Blank =>
        rw [hc] at hpeek
        rw [nextBlockGo_peek_blank parse hpeek]
        have h0 : rows = [] := by
          rw [recordsOf_cons, hc, maxRunRows_cons_blank] at hrows
          have he : (Except.ok [] : Except PE (List (List T))) = Except.ok rows := hrows
          exact (Except.ok.inj he).symm
        subst h0
        rw [blockBoundaryState_blank hc]
        rfl
      | Comment s =>
        rw [hc] at hpeek
        rw [nextBlockGo_peek_comment parse hpeek]
        have hstep : ({ { mkReader fd (encodeLines ls) with
            peek_buf := some (DataRecord.Comment s) } with peek_buf := none }
            : DataRecordReader) = mkReader fd (encodeLines ls) := rfl
        rw [hstep]
        rw [recordsOf_cons, hc, maxRunRows_cons_comment] at hrows
        rw [ih f hflen hls rows hrows]
        rw [blockBoundaryState_comment hc]
      | Fields fs =>
        rw [hc] at hpeek
        rw [nextBlockGo_peek_fields parse hpeek]
        have hstep : ({ { mkReader fd (encodeLines ls) with
            peek_buf := some (DataRecord.Fields fs) } with peek_buf := none }
            : DataRecordReader) = mkReader fd (encodeLines ls) := rfl
        rw [hstep]
        rw [recordsOf_cons, hc, maxRunRows_cons_fields] at hrows
        have hunf : parseRows parse (fs :: maxRunRows (recordsOf fd ls)) =
            (match collectResults parse fs with
             | Except.error e => Except.error e
             | Except.ok row =>
               match parseRows parse (maxRunRows (recordsOf fd ls)) with
               | Except.error e => Except.error e
               | Except.ok rows => Except.ok (row :: rows)) := rfl
        rw [hunf] at hrows
        cases hcr : collectResults parse fs with
        | error e =>
          rw [hcr] at hrows
          exact absurd hrows (by simp)
        | ok row =>
          rw [hcr] at hrows
          cases hpr : parseRows parse (maxRunRows (recordsOf fd ls)) with
          | error e =>
            rw [hpr] at hrows
            exact absurd hrows (by simp)
          | ok rows' =>
            rw [hpr] at hrows
            have hr' : rows = row :: rows' := by
              have he : (Except.ok (row :: rows') : Except PE (List (List T))) =
                  Except.ok rows := hrows
              exact (Except.ok.inj he).symm
            subst hr'
            show (match nextBlockGo parse f (mkReader fd (encodeLines ls)) with
              | none => none
              | some (Except.error e, r3) => some (Except.error e, r3)
              | some (Except.ok rows, r3) =>
                some (Except.ok (some (row :: rows.getD [])), r3)) =
              some (Except.ok (if (row :: rows').isEmpty then none else some (row :: rows')),
                blockBoundaryState fd (l :: ls))
            rw [ih f hflen hls rows' hpr]
            rw [blockBoundaryState_fields hc]
            show some (Except.ok (some (row ::
                (if rows'.isEmpty then none else some rows').getD [])),
                blockBoundaryState fd ls) =
              some (Except.ok (some (row :: rows')), blockBoundaryState fd ls)
            rw [if_isEmpty_getD]

theorem nextBlockGo_parse_error {PE T : Type} (parse : List Char → Except PE T) {fd : Nat}
    (hfd : fd < 0x80) :
    ∀ fuel lines, (encodeLines lines).length < fuel → linesWF lines = true →
    ∀ e : PE,
      parseRows parse (maxRunRows (recordsOf fd lines)) = Except.error e →
      ∃ st, nextBlockGo parse fuel (mkReader fd (encodeLines lines)) =
        some (Except.error (BlockError.parse e), st) := by
  intro fuel lines
  induction lines generalizing fuel with
  | nil =>
    intro hlen hwf e herr
    exact absurd herr (by simp [parseRows])
  | cons l ls ih =>
    intro hlen hwf e herr
    obtain ⟨hl10, hls⟩ := linesWF_cons hwf
    cases fuel with
    | zero => simp at hlen
    | succ f =>
      have hflen : (encodeLines ls).length < f := by
        rw [encodeLines_cons] at hlen
        simp only [List.length_append, List.length_cons] at hlen
        omega
      have hpeek : peek_record (mkReader fd (encodeLines (l :: ls))) =
          some (Except.ok (classify fd (l ++ ['\n'])),
            { mkReader fd (encodeLines ls) with
                peek_buf := some (classify fd (l ++ ['\n'])) }) := by
        rw [encodeLines_cons]
        exact peek_record_line hfd l _ hl10
      cases hc : classify fd (l ++ ['\n']) with
      | EOF => exact absurd hc (classify_ne_EOF fd _)
      | Blank =>
        rw [recordsOf_cons, hc, maxRunRows_cons_blank] at herr
        exact absurd herr (by simp [parseRows])
      | Comment s =>
        rw [hc] at hpeek
        rw [nextBlockGo_peek_comment parse hpeek]
        have hstep : ({ { mkReader fd (encodeLines ls) with
            peek_buf := some (DataRecord.Comment s) } with peek_buf := none }
            : DataRecordReader) = mkReader fd (encodeLines ls) := rfl
        rw [hstep]
        rw [recordsOf_cons, hc, maxRunRows_cons_comment] at herr
        exact ih f hflen hls e herr
      | Fields fs =>
        rw [hc] at hpeek
        rw [nextBlockGo_peek_fields parse hpeek]
        have hstep : ({ { mkReader fd (encodeLines ls) with
            peek_buf := some (DataRecord.Fields fs) } with peek_buf := none }
            : DataRecordReader) = mkReader fd (encodeLines ls) := rfl
        rw [hstep]
        rw [recordsOf_cons, hc, maxRunRows_cons_fields] at herr
        have hunf : parseRows parse (fs :: maxRunRows (recordsOf fd ls)) =
            (match collectResults parse fs with
             | Except.error e => Except.error e
             | Except.ok row =>
               match parseRows parse (maxRunRows (recordsOf fd ls)) with
               | Except.error e => Except.error e
               | Except.ok rows => Except.ok (row :: rows)) := rfl
        rw [hunf] at herr
        cases hcr : collectResults parse fs with
        | error e0 =>
          rw [hcr] at herr
          have he0 : e0 = e := Except.error.inj herr
          subst he0
          exact ⟨mkReader fd (encodeLines ls), rfl⟩
        | ok row =>
          rw [hcr] at herr
          cases hpr : parseRows parse (maxRunRows (recordsOf fd ls)) with
          | error e0 =>
            rw [hpr] at herr
            have he0 : e0 = e := Except.error.inj herr
            subst he0
            obtain ⟨st, hst⟩ := ih f hflen hls e0 hpr
            refine ⟨st, ?_⟩
            show (match nextBlockGo parse f (mkReader fd (encodeLines ls)) with
              | none => none
              | some (Except.error e1, r3) => some (Except.error e1, r3)
              | some (Except.ok rows, r3) =>
                some (Except.ok (some (row :: rows.getD [])), r3)) =
              some (Except.error (BlockError.parse e0), st)
            rw [hst]
          | ok rows' =>
            rw [hpr] at herr
            exact absurd herr (by simp)

theorem consumeBlanksGo_run {fd : Nat} (hfd : fd < 0x80) :
    ∀ fuel lines, (encodeLines lines).length < fuel → linesWF lines = true →
      consumeBlanksGo fuel (mkReader fd (encodeLines lines)) =
        some (Except.ok (blanksCount (recordsOf fd lines)), blanksBoundaryState fd lines) := by
  intro fuel lines
  induction lines generalizing fuel with
  | nil =>
    intro hlen hwf
    cases fuel with
    | zero => simp at hlen
    | succ f => exact consumeBlanksGo_peek_eof (peek_record_eof fd)
  | cons l ls ih =>
    intro hlen hwf
    obtain ⟨hl10, hls⟩ := linesWF_cons hwf
    cases fuel with
    | zero => simp at hlen
    | succ f =>
      have hflen : (encodeLines ls).length < f := by
        rw [encodeLines_cons] at hlen
        simp only [List.length_append, List.length_cons] at hlen
        omega
      have hpeek : peek_record (mkReader fd (encodeLines (l :: ls))) =
          some (Except.ok (classify fd (l ++ ['\n'])),
            { mkReader fd (encodeLines ls) with
                peek_buf := some (classify fd (l ++ ['\n'])) }) := by
        rw [encodeLines_cons]
        exact peek_record_line hfd l _ hl10
      cases hc : classify fd (l ++ ['\n']) with
      | EOF => exact absurd hc (classify_ne_EOF fd _)
      | Fields fs =>
        rw [hc] at hpeek
        rw [consumeBlanksGo_peek_fields hpeek]
        rw [recordsOf_cons, hc, blanksCount_cons_fields, blanksBoundaryState_fields hc]
      | Blank =>
        rw [hc] at hpeek
        rw [consumeBlanksGo_peek_blank hpeek]
        have hstep : ({ { mkReader fd (encodeLines ls) with
            peek_buf := some DataRecord.Blank } with peek_buf := none }
            : DataRecordReader) = mkReader fd (encodeLines ls) := rfl
        rw [hstep, ih f hflen hls]
        rw [recordsOf_cons, hc, blanksCount_cons_blank, blanksBoundaryState_blank hc]
      | Comment s =>
        rw [hc] at hpeek
        rw [consumeBlanksGo_peek_comment hpeek]
        have hstep : ({ { mkReader fd (encodeLines ls) with
            peek_buf := some (DataRecord.Comment s) } with peek_buf := none }
            : DataRecordReader) = mkReader fd (encodeLines ls) := rfl
        rw [hstep, ih f hflen hls]
        rw [recordsOf_cons, hc, blanksCount_cons_comment, blanksBoundaryState_comment hc]

theorem next_block_run {PE T : Type} (parse : List Char → Except PE T) {fd : Nat}
    (hfd : fd < 0x80) (lines : List (List Char)) (hwf : linesWF lines = true)
    (rows : List (List T))
    (hrows : parseRows parse (maxRunRows (recordsOf fd lines)) = Except.ok rows) :
    next_block parse (mkReader fd (encodeLines lines)) =
      some (Except.ok (if rows.isEmpty then none else some rows),
            blockBoundaryState fd lines) := by
  unfold next_block
  exact nextBlockGo_run parse hfd _ lines
    (by simp [readerMeasure, mkReader_def]) hwf rows hrows

theorem next_block_parse_error {PE T : Type} (parse : List Char → Except PE T) {fd : Nat}
    (hfd : fd < 0x80) (lines : List (List Char)) (hwf : linesWF lines = true)
    (e : PE) (herr : parseRows parse (maxRunRows (recordsOf fd lines)) = Except.error e) :
    ∃ st, next_block parse (mkReader fd (encodeLines lines)) =
      some (Except.error (BlockError.parse e), st) := by
  unfold next_block
  exact nextBlockGo_parse_error parse hfd _ lines
    (by simp [readerMeasure, mkReader_def]) hwf e herr

theorem consume_blanks_run {fd : Nat} (hfd : fd < 0x80) (lines : List (List Char))
    (hwf : linesWF lines = true) :
    consume_blanks (mkReader fd (encodeLines lines)) =
      some (Except.ok (blanksCount (recordsOf fd lines)), blanksBoundaryState fd lines) := by
  unfold consume_blanks
  exact consumeBlanksGo_run hfd _ lines
    (by simp [readerMeasure, mkReader_def]) hwf

/-- Reading a line that starts with the byte of `#` from a clean reader
yields a comment holding the raw decoded line, for every field
delimiter (the comment path never tokenizes). -/
theorem next_record_comment_line (fd : Nat) (lt : List Char) (rest : List Nat)
    (h10 : 10 ∉ utf8Encode ('#' :: lt)) :
    next_record (mkReader fd (utf8Encode ('#' :: lt) ++ 10 :: rest)) =
      some (Except.ok (DataRecord.Comment (('#' :: lt) ++ ['\n'])), mkReader fd rest) := by
  have hsplit : readUntilSplit 10 (utf8Encode ('#' :: lt) ++ 10 :: rest) =
      (utf8Encode ('#' :: lt) ++ [10], rest) :=
    readUntilSplit_append h10 rest
  have hbuf : utf8Encode ('#' :: lt) ++ [10] = utf8Encode (('#' :: lt) ++ ['\n']) := by
    rw [utf8Encode_append]
    rfl
  have hhead : (utf8Encode (('#' :: lt) ++ ['\n'])).head? = some 35 := by
    show (utf8EncodeChar '#' ++ utf8Encode (lt ++ ['\n'])).head? = some 35
    rw [List.head?_append_of_ne_nil _ (utf8EncodeChar_ne_nil '#')]
    rfl
  unfold next_record
  simp only [mkReader_def]
  show (let taken := (readUntilSplit 10 (utf8Encode ('#' :: lt) ++ 10 :: rest)).1
        let rest' := (readUntilSplit 10 (utf8Encode ('#' :: lt) ++ 10 :: rest)).2
        if taken.length = 0 then
          some (Except.ok DataRecord.EOF,
            ({ stream := rest', record_delimiter := 10, field_delimiter := fd,
               buffer := [] ++ taken, peek_buf := none } : DataRecordReader))
        else if (([] : List Nat) ++ taken).head? = some 35 then
          match from_utf8 ([] ++ taken) with
          | none => some (Except.error ReaderError.FromUTF8,
              ({ stream := rest', record_delimiter := 10, field_delimiter := fd,
                 buffer := [] ++ taken, peek_buf := none } : DataRecordReader))
          | some s => some (Except.ok (DataRecord.Comment s),
              ({ stream := rest', record_delimiter := 10, field_delimiter := fd,
                 buffer := [], peek_buf := none } : DataRecordReader))
        else
          match from_utf8 ([] ++ taken) with
          | none => some (Except.error ReaderError.FromUTF8,
              ({ stream := rest', record_delimiter := 10, field_delimiter := fd,
                 buffer := [] ++ taken, peek_buf := none } : DataRecordReader))
          | some s =>
            match enum_fields fd s with
            | none => none
            | some fields =>
              if fields.length = 0 then
                some (Except.ok DataRecord.Blank,
                  ({ stream := rest', record_delimiter := 10, field_delimiter := fd,
                     buffer := [], peek_buf := none } : DataRecordReader))
              else
                some (Except.ok (DataRecord.Fields fields),
                  ({ stream := rest', record_delimiter := 10, field_delimiter := fd,
                     buffer := [], peek_buf := none } : DataRecordReader))) =
      some (Except.ok (DataRecord.Comment (('#' :: lt) ++ ['\n'])), mkReader fd rest)
  simp only [hsplit, List.nil_append]
  rw [if_neg (by simp)]
  rw [hbuf, from_utf8_encode, if_pos hhead]
  rfl

/-! ### Claim theorems -/

/-- C1 (code bug): on a record whose raw bytes are not valid UTF-8,
`next_record` returns the typed decode error but does NOT clear the
internal line buffer: the source code clears the buffer only after
`String::from_utf8` has succeeded, so the error return skips the clear.
Concretely, on the stream `FF 0A 32 0A` (an invalid byte line followed
by the valid line "2\n"), the first call errors and leaves `[FF, 0A]`
in the buffer, and the second call appends "2\n" to the stale bytes and
errors again — the stale bytes of the failed record are reprocessed,
contradicting the claim that the failing call clears/resets the buffer. -/
theorem c1_decode_error_leaves_stale_buffer :
    next_record (DataRecordReader.new [255, 10, 50, 10]) =
      some (Except.error ReaderError.FromUTF8,
        ⟨[50, 10], 10, 44, [255, 10], none⟩) ∧
    next_record (⟨[50, 10], 10, 44, [255, 10], none⟩ : DataRecordReader) =
      some (Except.error ReaderError.FromUTF8,
        ⟨[], 10, 44, [255, 10, 50, 10], none⟩) := by
  constructor
  · decide
  · decide

/-- C2 counterexample: the text "a," has a trailing field delimiter,
yet tokenization yields just `["a"]` — no empty trimmed field is
produced for the trailing delimiter position, refuting the claim for
trailing delimiters. -/
theorem c2_counterexample :
    enum_fields 44 ['a', ','] = some [['a']] ∧
    ([] : List Char) ∉ [(['a'] : List Char)] := by
  constructor
  · decide
  · decide

/-- C2 (amended): a LEADING field delimiter (first character of the
trimmed text, for an ASCII delimiter byte) yields an empty trimmed
field for that position, counted as a field; and in particular the line
",\n" classified through the record reader yields `Fields [""]` (one
empty field), not `Blank`.  (A trailing delimiter yields no field, see
the counterexample.) -/
theorem c2_leading_delimiter_empty_field :
    (∀ (d : Nat) (t : List Char) (c : Char) (r' : List Char),
      d < 0x80 → trim t = c :: r' → c.toNat = d →
      ∃ fs, enum_fields d t = some (([] : List Char) :: fs)) ∧
    next_record (DataRecordReader.new [44, 10]) =
      some (Except.ok (DataRecord.Fields [[]]), ⟨[], 10, 44, [], none⟩) := by
  constructor
  · intro d t c r' hd he hc
    have hidem : trim (c :: r') = c :: r' := by
      rw [← he, trim_idem, he]
    have hnf : next_field d (c :: r') = some (trim [], r') :=
      next_field_first_delim hd (by rw [hidem, List.nil_append]) hc (by simp)
    have hrlen : r'.length < t.length := by
      have h1 : (trim t).length = r'.length + 1 := by
        rw [he]
        simp
      have h2 := trim_length_le t
      omega
    obtain ⟨fs', hfs'⟩ :=
      Option.isSome_iff_exists.mp (enumFieldsGo_isSome hd t.length r' hrlen)
    refine ⟨fs', ?_⟩
    unfold enum_fields
    rw [he, enumFieldsGo, if_neg (by simp), hnf]
    show (enumFieldsGo d t.length r').map (fun fs => trim [] :: fs) = some ([] :: fs')
    rw [hfs']
    rfl
  · decide

/-- Witness for C2 at a concrete input: the text ",a" has a leading
comma, and its tokenization starts with an empty field. -/
theorem c2_witness :
    ∃ fs, enum_fields 44 [',', 'a'] = some (([] : List Char) :: fs) :=
  c2_leading_delimiter_empty_field.1 44 [',', 'a'] ',' ['a'] (by decide) (by decide)
    (by decide)

/-- C3: once `peek_record` succeeds, peeking again returns the
identical record AND the identical reader state (so the underlying
source does not advance again), and the following `next_record`
consumes and returns that same cached record, changing nothing but the
peek slot (in particular the stream is untouched — no further read). -/
theorem c3_peek_idempotent (r r' : DataRecordReader) (rec : DataRecord)
    (h : peek_record r = some (Except.ok rec, r')) :
    peek_record r' = some (Except.ok rec, r') ∧
    next_record r' = some (Except.ok rec, { r' with peek_buf := none }) :=
  ⟨peek_record_again h, next_record_after_peek h⟩

/-- Witness for C3 on the concrete stream "1\n". -/
theorem c3_witness :
    peek_record (⟨[], 10, 44, [], some (DataRecord.Fields [['1']])⟩ : DataRecordReader) =
      some (Except.ok (DataRecord.Fields [['1']]),
        ⟨[], 10, 44, [], some (DataRecord.Fields [['1']])⟩) ∧
    next_record (⟨[], 10, 44, [], some (DataRecord.Fields [['1']])⟩ : DataRecordReader) =
      some (Except.ok (DataRecord.Fields [['1']]), ⟨[], 10, 44, [], none⟩) :=
  c3_peek_idempotent (DataRecordReader.new [49, 10]) _ _ (by decide)

/-- C4: over a well-formed line stream with an ASCII field delimiter,
when every field of the maximal leading run of field/comment records
parses, `next_block` returns exactly the parsed rows of that run
(comments skipped and not counted as rows), returns `none` exactly when
zero field rows were accumulated, and stops at the first blank or
end-of-input without consuming it: the boundary record sits in the peek
slot of the final state, so peeking it again yields the boundary and
does not advance the reader. -/
theorem c4_next_block_maximal_run {PE T : Type} (parse : List Char → Except PE T)
    (fd : Nat) (hfd : fd < 0x80) (lines : List (List Char)) (hwf : linesWF lines = true)
    (rows : List (List T))
    (hrows : parseRows parse (maxRunRows (recordsOf fd lines)) = Except.ok rows) :
    next_block parse (mkReader fd (encodeLines lines)) =
      some (Except.ok (if rows.isEmpty then none else some rows),
            blockBoundaryState fd lines) ∧
    peek_record (blockBoundaryState fd lines) =
      some (Except.ok (boundaryRec (recordsOf fd lines)), blockBoundaryState fd lines) :=
  ⟨next_block_run parse hfd lines hwf rows hrows, peek_record_peeked rfl⟩

/-- Witness for C4: lines "1" / "#x" / "2,3" / blank / "4" produce the
block [[1], [2, 3]] (the comment contributes no row) and stop at the
blank, which stays peekable. -/
theorem c4_witness :
    next_block parseDigits
        (mkReader 44 (encodeLines [['1'], ['#', 'x'], ['2', ',', '3'], [], ['4']])) =
      some (Except.ok
          (if ([[1], [2, 3]] : List (List Nat)).isEmpty then none else some [[1], [2, 3]]),
        blockBoundaryState 44 [['1'], ['#', 'x'], ['2', ',', '3'], [], ['4']]) ∧
    peek_record (blockBoundaryState 44 [['1'], ['#', 'x'], ['2', ',', '3'], [], ['4']]) =
      some (Except.ok (boundaryRec (recordsOf 44 [['1'], ['#', 'x'], ['2', ',', '3'], [], ['4']])),
        blockBoundaryState 44 [['1'], ['#', 'x'], ['2', ',', '3'], [], ['4']]) :=
  c4_next_block_maximal_run parseDigits 44 (by decide)
    [['1'], ['#', 'x'], ['2', ',', '3'], [], ['4']] (by decide) [[1], [2, 3]] (by decide)

/-- C5: if some field of a field record in the block fails the
caller-supplied per-field parse, `next_block` returns that parse error
and yields no partial block: the result is the error value, not a
success carrying the rows accumulated before the failure. -/
theorem c5_parse_error_aborts_block {PE T : Type} (parse : List Char → Except PE T)
    (fd : Nat) (hfd : fd < 0x80) (lines : List (List Char)) (hwf : linesWF lines = true)
    (e : PE) (herr : parseRows parse (maxRunRows (recordsOf fd lines)) = Except.error e) :
    ∃ st, next_block parse (mkReader fd (encodeLines lines)) =
      some (Except.error (BlockError.parse e), st) :=
  next_block_parse_error parse hfd lines hwf e herr

/-- Witness for C5: lines "1" / "x" — the first row parses, the second
fails, and the whole block read returns the parse error (the already
parsed row [1] is discarded, not returned as a success). -/
theorem c5_witness :
    ∃ st, next_block parseDigits (mkReader 44 (encodeLines [['1'], ['x']])) =
      some (Except.error (BlockError.parse ()), st) :=
  c5_parse_error_aborts_block parseDigits 44 (by decide) [['1'], ['x']] (by decide) ()
    (by decide)

/-- C6: `consume_blanks` consumes records while the peeked record is
blank or comment, counting one per consumed record, stops at the first
field record or end-of-input without consuming it (the boundary stays
peekable in the peek slot), and returns the count. -/
theorem c6_consume_blanks (fd : Nat) (hfd : fd < 0x80) (lines : List (List Char))
    (hwf : linesWF lines = true) :
    consume_blanks (mkReader fd (encodeLines lines)) =
      some (Except.ok (blanksCount (recordsOf fd lines)), blanksBoundaryState fd lines) ∧
    peek_record (blanksBoundaryState fd lines) =
      some (Except.ok (blanksBoundary (recordsOf fd lines)), blanksBoundaryState fd lines) :=
  ⟨consume_blanks_run hfd lines hwf, peek_record_peeked rfl⟩

/-- Witness for C6: two consecutive blank lines before "1" yield the
count 2, and the reader is positioned at the field record. -/
theorem c6_witness :
    consume_blanks (mkReader 44 (encodeLines [[], [], ['1']])) =
      some (Except.ok 2, blanksBoundaryState 44 [[], [], ['1']]) ∧
    peek_record (blanksBoundaryState 44 [[], [], ['1']]) =
      some (Except.ok (blanksBoundary (recordsOf 44 [[], [], ['1']])),
        blanksBoundaryState 44 [[], [], ['1']]) :=
  c6_consume_blanks 44 (by decide) [[], [], ['1']] (by decide)

/-- C7: a line whose first raw byte is `#` is classified as a comment
for EVERY configured field delimiter (no ASCII restriction — the
comment path never tokenizes), and the comment text is the raw decoded
line with no trimming applied, including its trailing record
delimiter. -/
theorem c7_comment_line (fd : Nat) (l : List Char) (rest : List Nat)
    (hh : l.head? = some '#') (h10 : 10 ∉ utf8Encode l) :
    next_record (mkReader fd (utf8Encode l ++ 10 :: rest)) =
      some (Except.ok (DataRecord.Comment (l ++ ['\n'])), mkReader fd rest) := by
  cases l with
  | nil => simp at hh
  | cons c0 lt =>
    simp only [List.head?_cons, Option.some.injEq] at hh
    subst hh
    exact next_record_comment_line fd lt rest h10

/-- Witness for C7: the line "#a,b" with the exotic field delimiter
byte 200 still classifies as a comment carrying the raw line text
"#a,b\n". -/
theorem c7_witness :
    next_record (mkReader 200 (utf8Encode ['#', 'a', ',', 'b'] ++ 10 :: [])) =
      some (Except.ok (DataRecord.Comment (['#', 'a', ',', 'b'] ++ ['\n'])), mkReader 200 []) :=
  c7_comment_line 200 ['#', 'a', ',', 'b'] [] (by decide) (by decide)

/-- C8 counterexample: the text "a, " has no leading, trailing or
adjacent delimiter occurrence, yet tokenization does NOT yield the
trimmed substrings between delimiter occurrences (["a", ""]): the
whitespace-only final part is dropped by the initial trim, and the
result is just ["a"]. -/
theorem c8_counterexample :
    enum_fields 44 ['a', ',', ' '] ≠ some ((splitOnByte 44 ['a', ',', ' ']).map trim) := by
  decide

/-- C8 (amended): for an ASCII, non-whitespace delimiter byte `d` and a
text whose trimmed form is nonempty and has no leading delimiter, no
trailing delimiter, and no two adjacent delimiters, `enum_fields`
yields exactly the substrings of the trimmed text lying between
consecutive occurrences of `d`, each trimmed, in left-to-right order. -/
theorem c8_split_between_delimiters (d : Nat) (hd : d < 0x80) (hw : wsByte d = false)
    (t : List Char) (h0 : trim t ≠ [])
    (_h1 : headIsDelim d (trim t) = false)
    (h2 : headIsDelim d (trim t).reverse = false)
    (_h3 : hasAdjacentDelim d (trim t) = false) :
    enum_fields d t = some ((splitOnByte d (trim t)).map trim) :=
  enum_fields_split hd hw h0 h2

/-- Witness for C8 on the concrete text " 10, 20 ,30". -/
theorem c8_witness :
    enum_fields 44 [' ', '1', '0', ',', ' ', '2', '0', ' ', ',', '3', '0'] =
      some ((splitOnByte 44
        (trim [' ', '1', '0', ',', ' ', '2', '0', ' ', ',', '3', '0'])).map trim) :=
  c8_split_between_delimiters 44 (by decide) (by decide)
    [' ', '1', '0', ',', ' ', '2', '0', ' ', ',', '3', '0']
    (by decide) (by decide) (by decide) (by decide)

/-- C9: whenever `peek_record` returns a record that is neither `EOF`
nor `Blank`, the immediately following `next_record` returns exactly
that cached record (so the `match` in `next_block` that peeked it sees
the same value), and that record is necessarily a `Comment` or a
`Fields` variant — hence the `panic!("unreachable!")` arm of
`next_block`, reached only on a consumed `EOF`/`Blank` after such a
peek, can never execute. -/
theorem c9_peek_then_next (r r' : DataRecordReader) (rec : DataRecord)
    (h : peek_record r = some (Except.ok rec, r'))
    (h1 : rec ≠ DataRecord.EOF) (h2 : rec ≠ DataRecord.Blank) :
    next_record r' = some (Except.ok rec, { r' with peek_buf := none }) ∧
    ((∃ s, rec = DataRecord.Comment s) ∨ (∃ fs, rec = DataRecord.Fields fs)) := by
  refine ⟨next_record_after_peek h, ?_⟩
  cases rec with
  | Fields fs => exact Or.inr ⟨fs, rfl⟩
  | Comment s => exact Or.inl ⟨s, rfl⟩
  | Blank => exact absurd rfl h2
  | EOF => exact absurd rfl h1

/-- Witness for C9 on the concrete stream "7\n". -/
theorem c9_witness :
    next_record (⟨[], 10, 44, [], some (DataRecord.Fields [['7']])⟩ : DataRecordReader) =
      some (Except.ok (DataRecord.Fields [['7']]), ⟨[], 10, 44, [], none⟩) ∧
    ((∃ s, DataRecord.Fields [['7']] = DataRecord.Comment s) ∨
     (∃ fs, DataRecord.Fields [['7']] = DataRecord.Fields fs)) :=
  c9_peek_then_next (DataRecordReader.new [55, 10]) _ _ (by decide) (by decide) (by decide)

/-- C10 counterexample: for the non-ASCII delimiter byte 0xA9 and the
valid one-character string "©" (UTF-8 bytes C2 A9), `memchr` locates the
byte at position 1, which is not a character boundary of the string, so
the byte slicing in `next_field` panics (modelled by `none`): the claim
fails for delimiter bytes at or above 0x80. -/
theorem c10_counterexample : next_field 169 ['©'] = none := by decide

/-- C10 (amended): for every ASCII delimiter byte (below 0x80) and
every valid UTF-8 string, `next_field` returns without panicking — its
byte-position slicing always falls on character boundaries — and hence
every step of the `EnumFields` iterator (the whole `enum_fields` drain)
is panic-free as well. -/
theorem c10_ascii_delimiter_no_panic (d : Nat) (hd : d < 0x80) (s : List Char) :
    (next_field d s).isSome ∧ (enum_fields d s).isSome :=
  ⟨next_field_isSome hd s, enum_fields_isSome hd s⟩

/-- Witness for C10 on the delimiter comma and the string "x,y". -/
theorem c10_witness :
    (next_field 44 ['x', ',', 'y']).isSome ∧ (enum_fields 44 ['x', ',', 'y']).isSome :=
  c10_ascii_delimiter_no_panic 44 (by decide) ['x', ',', 'y']

end Botao
